import Mathlib

/-!
Verification of the Huffman-coding repository (`huff_structs/branch.rs`,
`huff_structs/tree.rs`, `huff_coding/src/lib.rs`) against its
natural-language specification.

The data model is a shallow embedding of the Rust structs:

* `HuffLeaf`   ↔ the `HuffLeaf` payload `{ character, frequency, code }`
  (the leaf source file is absent from the repository snapshot; the spec's
  §3 "Leaf" record fixes its fields, with `code` unset at construction).
* `HuffBranch` ↔ `HuffBranch { leaf, pos_in_parent, children }`, where the
  Rust `children : Option<[Box<RefCell<HuffBranch>>; 2]>` is embedded as
  the two constructors `terminal` (children = None) and `internal`
  (children = Some [c0, c1]).
* `HuffTree`   ↔ `HuffTree { root, char_codes }`; the `HashMap<char, _>`
  is embedded as a function `Char → Option (List Bool)` and a Huffman code
  (`HuffCode` / `String` of '0'/'1') as a `List Bool`, most significant
  bit first, `true` ↔ '1'.

Panicking Rust code (`assert!`, `unwrap`) is embedded with an explicit
`panicked` result where the claims depend on it (`grow_ctf`).
-/

namespace Huff

/-- Leaf payload of a tree node, following spec §3 and the uses of
`HuffLeaf::new(character, frequency)` in `branch.rs`/`tree.rs`:
`character = none` marks an internal node, `code` is populated only by the
code-assignment pass. -/
structure HuffLeaf where
  character : Option Char
  frequency : Nat
  code : Option (List Bool)
deriving DecidableEq, Repr

/-- A node of the Huffman tree, embedding `HuffBranch` from `branch.rs`.
`terminal lf pos` is a branch with `children = None`; `internal lf pos c0 c1`
is a branch with `children = Some [c0, c1]`. -/
inductive HuffBranch where
  | terminal (lf : HuffLeaf) (pos : Option Nat)
  | internal (lf : HuffLeaf) (pos : Option Nat) (c0 c1 : HuffBranch)
deriving DecidableEq, Repr

namespace HuffBranch

/-- Accessor `HuffBranch::leaf`. -/
def leaf : HuffBranch → HuffLeaf
  | terminal lf _ => lf
  | internal lf _ _ _ => lf

/-- Accessor `HuffBranch::pos_in_parent`. -/
def posInParent : HuffBranch → Option Nat
  | terminal _ pos => pos
  | internal _ pos _ _ => pos

/-- Shorthand for the stored frequency of the branch's leaf. -/
def freqOf (b : HuffBranch) : Nat := b.leaf.frequency

/-- Shorthand for the stored letter of the branch's leaf. -/
def letterOf (b : HuffBranch) : Option Char := b.leaf.character

/-- Shorthand for the stored code of the branch's leaf. -/
def codeOf (b : HuffBranch) : Option (List Bool) := b.leaf.code

/-- Embedding of `HuffBranch::set_pos_in_parent` (branch.rs:91-93):
stores `some pos`, leaving everything else unchanged. -/
def setPosInParent : HuffBranch → Nat → HuffBranch
  | terminal lf _, p => terminal lf (some p)
  | internal lf _ c0 c1, p => internal lf (some p) c0 c1

end HuffBranch

/-- Embedding of `impl Ord for HuffBranch` (branch.rs:26-30): the comparison
is `other.leaf().frequency().cmp(&self.leaf().frequency())`, i.e. the
arguments are swapped so that a max-priority structure pops minima. -/
def hbCmp (a b : HuffBranch) : Ordering :=
  compare b.leaf.frequency a.leaf.frequency

/-- Embedding of `impl PartialEq for HuffBranch` (branch.rs:38-42):
equality compares only the leaves' frequencies. -/
def hbEq (a b : HuffBranch) : Bool :=
  a.leaf.frequency == b.leaf.frequency

end Huff

namespace Huff

open HuffBranch

/-- Code bits produced by `HuffBranch::set_code` (branch.rs:97-111) for a
node with position `p` below a parent whose code is `parentCode`: the
parent's bits (nothing when the parent has no code yet) followed by the one
bit `p >= 1`. -/
def codeBits (parentCode : Option (List Bool)) (p : Nat) : List Bool :=
  (parentCode.getD []) ++ [decide (1 ≤ p)]

/-- Embedding of `HuffBranch::set_code` at the leaf level: the code is set
only when `pos_in_parent` is `some`. -/
def setCodeLeaf (parentCode : Option (List Bool)) (pos : Option Nat)
    (lf : HuffLeaf) : HuffLeaf :=
  match pos with
  | some p => { lf with code := some (codeBits parentCode p) }
  | none => lf

/-- Embedding of `HuffTree::set_branch_codes` (tree.rs:208-223) fused with
the per-node `set_code` call: in the Rust code every non-root node `n` gets
`n.set_code(parent.leaf().code())` (reading the parent's code after the
parent's own code was set) and the recursion then descends into `n`.  Here
the parent's code is passed down as an argument; since `set_code` is a
no-op when `pos_in_parent` is `none` and the grown root always has
`pos_in_parent = none`, calling this on the root with any `parentCode`
coincides with the Rust traversal. -/
def setBranchCodes (parentCode : Option (List Bool)) :
    HuffBranch → HuffBranch
  | .terminal lf pos => .terminal (setCodeLeaf parentCode pos lf) pos
  | .internal lf pos c0 c1 =>
    let lf2 := setCodeLeaf parentCode pos lf
    .internal lf2 pos (setBranchCodes lf2.code c0) (setBranchCodes lf2.code c1)

/-- Character-to-code table, embedding `HashMap<char, String>`. -/
def CharCodes := Char → Option (List Bool)

/-- Embedding of `HashMap::insert`. -/
def ccInsert (m : CharCodes) (c : Char) (v : List Bool) : CharCodes :=
  fun x => if x = c then some v else m x

/-- The empty code table. -/
def ccEmpty : CharCodes := fun _ => none

/-- Embedding of `HuffTree::set_char_codes` (tree.rs:225-250).  An internal
node inserts, for each child in order, the child's letter with the child's
stored code when the child carries a letter, and recurses otherwise; a
childless root inserts its letter with the single-bit code "0".  The Rust
`unwrap()` calls are total on grown trees (terminal nodes carry a letter
and a code after the assignment pass); `getD` supplies the irrelevant
default elsewhere. -/
def setCharCodes : HuffBranch → CharCodes → CharCodes
  | .terminal lf _, m => ccInsert m (lf.character.getD default) [false]
  | .internal _ _ c0 c1, m =>
    let m0 :=
      match c0.letterOf with
      | some ch => ccInsert m ch (c0.codeOf.getD [])
      | none => setCharCodes c0 m
    match c1.letterOf with
    | some ch => ccInsert m0 ch (c1.codeOf.getD [])
    | none => setCharCodes c1 m0

/-- Embedding of the struct `HuffTree { root, char_codes }` (tree.rs:29-32). -/
structure HuffTree where
  root : Option HuffBranch
  charCodes : CharCodes

/-- Result of running `grow_ctf`: either a grown tree or a Rust panic
(`assert!`/`unwrap` failure) with its message. -/
inductive HuffResult where
  | ok (t : HuffTree)
  | panicked (msg : String)

/-- Modelled from the spec: the missing `branch_heap.rs` provides
`HuffBranchHeap`, a min-priority container over branches keyed by weight
(§4.1); its pop order among equal weights is unspecified (§4.2, §9).  This
deterministic model pops the leftmost branch of minimal frequency from a
list; `popMinFrom x l` scans `x :: l` and returns the popped minimum
together with the remaining branches. -/
def popMinFrom : HuffBranch → List HuffBranch →
    HuffBranch × List HuffBranch
  | x, [] => (x, [])
  | x, y :: ys =>
    if y.freqOf < x.freqOf then
      let r := popMinFrom y ys
      (r.1, x :: r.2)
    else
      let r := popMinFrom x ys
      (r.1, y :: r.2)

/-- The new internal branch built by one iteration of the `grow_ctf` loop
(tree.rs:178-193): the first popped minimum gets `pos_in_parent = 0`, the
second `1`, and the branch owns them in that order with `letter = None`
and the summed frequency. -/
def mergeBranch (a b : HuffBranch) : HuffBranch :=
  .internal (HuffLeaf.mk none (a.freqOf + b.freqOf) none) none
    (a.setPosInParent 0) (b.setPosInParent 1)

/-- The `while branch_heap.len() > 1` loop of `grow_ctf` (tree.rs:178-193),
with explicit fuel (each iteration shrinks the heap by one, so fuel equal
to the initial length suffices). -/
def growLoop : Nat → List HuffBranch → List HuffBranch
  | 0, l => l
  | _ + 1, [] => []
  | _ + 1, [t] => [t]
  | fuel + 1, x :: y :: ys =>
    let p1 := popMinFrom x (y :: ys)
    match p1.2 with
    | [] => [p1.1]
    | z :: zs =>
      let p2 := popMinFrom z zs
      growLoop fuel (p2.2 ++ [mergeBranch p1.1 p2.1])

/-- The initial forest built by `HuffBranchHeap::from(ctf)`: one terminal
branch per table entry, holding that letter and weight, with no children,
no position and no code (spec §4.1; `HuffBranch::new` in branch.rs:54-61
sets `pos_in_parent = None`).  The table is embedded as an association
list. -/
def initialForest (ctf : List (Char × Nat)) : List HuffBranch :=
  ctf.map fun e => .terminal (HuffLeaf.mk (some e.1) e.2 none) none

/-- The tail of `grow_ctf` after the heap has been built (tree.rs:178-205):
run the merge loop, pop the single remaining branch as root, assign branch
codes, and collect the char code table. -/
def growCtfHeap (l : List HuffBranch) : HuffResult :=
  match growLoop l.length l with
  | [] => .panicked "empty heap"
  | r :: _ =>
    let root := setBranchCodes none r
    .ok ⟨some root, setCharCodes root ccEmpty⟩

/-- Embedding of `HuffTree::grow_ctf` (tree.rs:166-205): assert the table
is non-empty (the Rust `assert!(ctf.len() > 0, "ctf is empty")` panic is
an explicit result), build the heap, then run `growCtfHeap`. -/
def growCtf (ctf : List (Char × Nat)) : HuffResult :=
  match initialForest ctf with
  | [] => .panicked "ctf is empty"
  | x :: l => growCtfHeap (x :: l)

/-- The 32-bit most-significant-bit-first binary representation of a char,
as produced by `format!("{:032b}", c as u32)` in tree.rs:265. -/
def charBits (c : Char) : List Bool :=
  (List.range 32).map fun i => c.toNat.testBit (31 - i)

/-- Embedding of `HuffTree::set_bin` (tree.rs:252-268): the accumulator
`bin` grows by '1' followed by both children for an internal branch, and by
'0' followed by the 32-bit letter for a terminal branch. -/
def setBin : List Bool → HuffBranch → List Bool
  | bin, .terminal lf _ => (bin ++ [false]) ++ charBits (lf.character.getD default)
  | bin, .internal _ _ c0 c1 => setBin (setBin (bin ++ [true]) c0) c1

/-- The serialized form as the spec describes it (§4.4 "Serialize"): a
depth-first pre-order walk emitting bit 1 then both children for an
internal node, and bit 0 then the fixed-width letter for a terminal node.
This is the refinement target for `setBin`. -/
def binSpec : HuffBranch → List Bool
  | .terminal lf _ => false :: charBits (lf.character.getD default)
  | .internal _ _ c0 c1 => true :: (binSpec c0 ++ binSpec c1)

/-- Rewrites every stored frequency in a tree (keeping shape, letters,
positions and codes), used to state that serialization never reads
weights. -/
def mapFreq (f : Nat → Nat) : HuffBranch → HuffBranch
  | .terminal lf pos => .terminal { lf with frequency := f lf.frequency } pos
  | .internal lf pos c0 c1 =>
    .internal { lf with frequency := f lf.frequency } pos
      (mapFreq f c0) (mapFreq f c1)

/-- The merge loop never empties a non-empty heap. -/
theorem growLoop_ne_nil (fuel : Nat) :
    ∀ l : List HuffBranch, l ≠ [] → growLoop fuel l ≠ [] := by
  induction fuel with
  | zero => intro l hl; simpa [growLoop] using hl
  | succ n ih =>
    intro l hl
    match l with
    | [t] => simp [growLoop]
    | x :: y :: ys =>
      rw [growLoop]
      cases h : (popMinFrom x (y :: ys)).2 with
      | nil => simp
      | cons z zs =>
        simp only []
        exact ih _ (by simp)

/-- On a non-empty heap, `growCtfHeap` succeeds, returning the root popped
from the merge loop with its codes assigned. -/
theorem growCtfHeap_ok (l : List HuffBranch) (hl : l ≠ []) :
    ∃ r rest, growLoop l.length l = r :: rest ∧
      growCtfHeap l =
        .ok ⟨some (setBranchCodes none r),
          setCharCodes (setBranchCodes none r) ccEmpty⟩ := by
  rcases hg : growLoop l.length l with _ | ⟨r, rest⟩
  · exact absurd hg (growLoop_ne_nil _ _ hl)
  · exact ⟨r, rest, rfl, by rw [growCtfHeap, hg]⟩

/-- On a non-empty table, `growCtf` runs `growCtfHeap` on the initial
forest. -/
theorem growCtf_eq_heap (ctf : List (Char × Nat)) (h : ctf ≠ []) :
    growCtf ctf = growCtfHeap (initialForest ctf) := by
  rcases ctf with _ | ⟨e, es⟩
  · exact absurd rfl h
  · rfl

/-- The node of a tree reached by following a list of directions from the
root: `false` descends into the first child, `true` into the second. -/
def nodeAt : HuffBranch → List Bool → Option HuffBranch
  | t, [] => some t
  | .terminal _ _, _ :: _ => none
  | .internal _ _ c0 _, false :: p => nodeAt c0 p
  | .internal _ _ _ c1, true :: p => nodeAt c1 p

/-- Positions are consistent with the children order: below every internal
node the first child stores `pos_in_parent = 0` and the second `1`.  Every
tree assembled by `grow_ctf` satisfies this. -/
def WellPos : HuffBranch → Prop
  | .terminal _ _ => True
  | .internal _ _ c0 c1 =>
    c0.posInParent = some 0 ∧ c1.posInParent = some 1 ∧ WellPos c0 ∧ WellPos c1

/-- No node of the tree has a code assigned yet (true of every branch in
the heap before the code-assignment pass runs). -/
def CodesNone : HuffBranch → Prop
  | .terminal lf _ => lf.code = none
  | .internal lf _ c0 c1 => lf.code = none ∧ CodesNone c0 ∧ CodesNone c1

/-- Terminal nodes carry a letter and internal nodes carry none (true of
every branch built by `grow_ctf`). -/
def TerminalChars : HuffBranch → Prop
  | .terminal lf _ => lf.character.isSome
  | .internal lf _ c0 c1 =>
    lf.character = none ∧ TerminalChars c0 ∧ TerminalChars c1

end Huff

namespace Huff

/-- Embedding of `HuffTree::as_bin` (tree.rs:121-152): serialize from the
root; the Rust `self.root().unwrap()` panics when the root is absent,
embedded as `none`. -/
def asBin (t : HuffTree) : Option (List Bool) :=
  t.root.map (setBin [])

/-- The accumulator-style source serializer appends exactly the spec's
pre-order encoding. -/
theorem setBin_eq_binSpec (t : HuffBranch) :
    ∀ bin, setBin bin t = bin ++ binSpec t := by
  induction t with
  | terminal lf pos => intro bin; simp [setBin, binSpec]
  | internal lf pos c0 c1 ih0 ih1 => intro bin; simp [setBin, binSpec, ih0, ih1]

/-- The spec serializer never reads stored frequencies. -/
theorem binSpec_mapFreq (f : Nat → Nat) (t : HuffBranch) :
    binSpec (mapFreq f t) = binSpec t := by
  induction t with
  | terminal lf pos => rfl
  | internal lf pos c0 c1 ih0 ih1 => simp [mapFreq, binSpec, ih0, ih1]

/-- Claim C3: `as_bin` is the depth-first pre-order serialization — one
bit 1 then the encodings of the first and second child for an internal
branch, one bit 0 then the 32-bit most-significant-bit-first letter for a
terminal branch — and weights are never emitted: rewriting every stored
frequency leaves the output unchanged. -/
theorem claim_C3 :
    (∀ tr r, tr.root = some r → asBin tr = some (binSpec r))
    ∧ (∀ bin t, setBin bin t = bin ++ binSpec t)
    ∧ (∀ lf pos, binSpec (.terminal lf pos) =
        false :: charBits (lf.character.getD default))
    ∧ (∀ lf pos c0 c1, binSpec (.internal lf pos c0 c1) =
        true :: (binSpec c0 ++ binSpec c1))
    ∧ (∀ c, (charBits c).length = 32)
    ∧ (∀ f t, binSpec (mapFreq f t) = binSpec t) := by
  refine ⟨fun tr r hr => ?_, fun bin t => setBin_eq_binSpec t bin,
    fun lf pos => rfl, fun lf pos c0 c1 => rfl,
    fun c => by simp [charBits], binSpec_mapFreq⟩
  rw [asBin, hr]
  simp [setBin_eq_binSpec r []]

/-- Witness for C3 at a concrete two-leaf tree: its serialization is
bit 1, then (0, 32 bits of 'a'), then (0, 32 bits of 'b'). -/
theorem claim_C3_witness :
    asBin ⟨some (.internal ⟨none, 3, none⟩ none
        (.terminal ⟨some 'a', 1, none⟩ (some 0))
        (.terminal ⟨some 'b', 2, none⟩ (some 1))), ccEmpty⟩ =
      some (true :: ((false :: charBits 'a') ++ (false :: charBits 'b'))) := by
  have h := claim_C3.1 ⟨some (.internal ⟨none, 3, none⟩ none
      (.terminal ⟨some 'a', 1, none⟩ (some 0))
      (.terminal ⟨some 'b', 2, none⟩ (some 1))), ccEmpty⟩
    (.internal ⟨none, 3, none⟩ none
      (.terminal ⟨some 'a', 1, none⟩ (some 0))
      (.terminal ⟨some 'b', 2, none⟩ (some 1))) rfl
  rw [h]
  rfl

/-- Claim C10: ordering and equality of `HuffBranch` values depend only on
their leaves' frequencies — branches with equal frequencies compare equal
whatever their letters, children or positions hold — and the comparison is
reversed: a branch with strictly greater frequency compares strictly less
(so a max-priority container pops the minimum-weight branch first). -/
theorem claim_C10 (a b a2 b2 : HuffBranch)
    (hfa : a.leaf.frequency = a2.leaf.frequency)
    (hfb : b.leaf.frequency = b2.leaf.frequency) :
    (hbCmp a b = hbCmp a2 b2 ∧ hbEq a b = hbEq a2 b2)
    ∧ (hbEq a b = true ↔ a.leaf.frequency = b.leaf.frequency)
    ∧ (b.leaf.frequency < a.leaf.frequency → hbCmp a b = .lt) := by
  refine ⟨⟨by rw [hbCmp, hbCmp, hfa, hfb], by rw [hbEq, hbEq, hfa, hfb]⟩,
    by simp [hbEq], fun h => ?_⟩
  simp [hbCmp, compare_lt_iff_lt, h]

/-- Witness for C10 at concrete branches: a terminal branch holding letter
'a' and an internal branch holding different letters and children but the
same frequency 5 compare equal, and frequency 7 versus 5 compares `lt`. -/
theorem claim_C10_witness :
    (hbCmp (.terminal ⟨some 'a', 5, none⟩ none)
        (.internal ⟨none, 5, none⟩ (some 1)
          (.terminal ⟨some 'b', 2, none⟩ (some 0))
          (.terminal ⟨some 'c', 3, none⟩ (some 1)))
      = hbCmp (.terminal ⟨some 'z', 5, some [true]⟩ (some 0))
        (.terminal ⟨some 'q', 5, none⟩ none))
    ∧ (hbEq (.terminal ⟨some 'a', 7, none⟩ none)
        (.terminal ⟨some 'b', 5, none⟩ none) = true
          ↔ (7 : Nat) = 5)
    ∧ hbCmp (.terminal ⟨some 'a', 7, none⟩ none)
        (.terminal ⟨some 'b', 5, none⟩ none) = .lt := by
  have h := claim_C10 (.terminal ⟨some 'a', 5, none⟩ none)
    (.internal ⟨none, 5, none⟩ (some 1)
      (.terminal ⟨some 'b', 2, none⟩ (some 0))
      (.terminal ⟨some 'c', 3, none⟩ (some 1)))
    (.terminal ⟨some 'z', 5, some [true]⟩ (some 0))
    (.terminal ⟨some 'q', 5, none⟩ none) rfl rfl
  have h2 := claim_C10 (.terminal ⟨some 'a', 7, none⟩ none)
    (.terminal ⟨some 'b', 5, none⟩ none)
    (.terminal ⟨some 'a', 7, none⟩ none)
    (.terminal ⟨some 'b', 5, none⟩ none) rfl rfl
  exact ⟨h.1.1, h2.2.1, h2.2.2 (by decide)⟩

/-- Claim C8: a weight table with exactly one entry `(c, w)` grows into a
tree whose root is that single terminal branch — no children, no
`pos_in_parent`, letter `c`, weight `w`, code left unset — and whose code
table maps `c` to the single-bit code "0" (here `[false]`) and nothing
else. -/
theorem claim_C8 (c : Char) (w : Nat) :
    growCtf [(c, w)] =
      .ok ⟨some (.terminal ⟨some c, w, none⟩ none), ccInsert ccEmpty c [false]⟩
    ∧ ccInsert ccEmpty c [false] c = some [false]
    ∧ ∀ x, x ≠ c → ccInsert ccEmpty c [false] x = none := by
  refine ⟨rfl, by simp [ccInsert], fun x hx => ?_⟩
  simp [ccInsert, ccEmpty, hx]

/-- Counterexample to claim C6 as stated: on the empty weight table,
`grow_ctf` does not return a typed `EmptyAlphabet` error value to the
caller — the code has no typed error channel at all — it crashes via
`assert!(ctf.len() > 0, "ctf is empty")`, embedded as the `panicked`
result carrying that assertion message. -/
theorem claim_C6_counterexample :
    growCtf [] = .panicked "ctf is empty" := rfl

/-- Claim C6 as amended: building a tree from an empty weight table fails
with the assertion panic "ctf is empty" (a crash, not a returned typed
error), and a successful `grow_ctf` never produces a tree with
`root = None`. -/
theorem claim_C6 :
    growCtf [] = .panicked "ctf is empty"
    ∧ ∀ ctf t, growCtf ctf = .ok t → t.root ≠ none := by
  refine ⟨rfl, fun ctf t h => ?_⟩
  have hctf : ctf ≠ [] := by
    rintro rfl; exact absurd h (by simp [growCtf, initialForest])
  rw [growCtf_eq_heap ctf hctf] at h
  obtain ⟨r, rest, -, hok⟩ :=
    growCtfHeap_ok (initialForest ctf) (by simp [initialForest, hctf])
  rw [hok] at h
  cases h
  simp

/-- Witness for C6 at the one-entry table {'a' ↦ 1}: the grown tree's root
is not `None`. -/
theorem claim_C6_witness :
    growCtf [] = .panicked "ctf is empty"
    ∧ (HuffTree.mk (some (.terminal ⟨some 'a', 1, none⟩ none))
        (ccInsert ccEmpty 'a' [false])).root ≠ none :=
  ⟨claim_C6.1, claim_C6.2 [('a', 1)] _ rfl⟩

/-- Counterexample to claim C7 as stated: on the table
{'a' ↦ 0, 'b' ↦ 1}, which contains a zero weight, `grow_ctf` does not fail
with a typed `InvalidWeight` error — no such check exists — it succeeds,
the zero-weight letter 'a' participates in the merge (it becomes the first
child of the root) and appears in the code table with code "0". -/
theorem claim_C7_counterexample :
    growCtf [('a', 0), ('b', 1)] =
      .ok ⟨some (.internal ⟨none, 1, none⟩ none
          (.terminal ⟨some 'a', 0, some [false]⟩ (some 0))
          (.terminal ⟨some 'b', 1, some [true]⟩ (some 1))),
        ccInsert (ccInsert ccEmpty 'a' [false]) 'b' [true]⟩
    ∧ ccInsert (ccInsert ccEmpty 'a' [false]) 'b' [true] 'a' = some [false] := by
  exact ⟨rfl, by simp [ccInsert, ccEmpty]⟩

/-- Claim C7 as amended: zero weights are never rejected — `grow_ctf`
succeeds on every non-empty weight table, whatever its weights — and on
{'a' ↦ 0, 'b' ↦ 1} the zero-weight letter 'a' is merged into the tree and
mapped by the code table. -/
theorem claim_C7 :
    (∀ ctf, ctf ≠ [] → ∃ t, growCtf ctf = .ok t)
    ∧ (match growCtf [('a', 0), ('b', 1)] with
        | .ok t => t.charCodes 'a' = some [false]
        | .panicked _ => False) := by
  constructor
  · intro ctf hctf
    rw [growCtf_eq_heap ctf hctf]
    obtain ⟨r, rest, -, hok⟩ :=
      growCtfHeap_ok (initialForest ctf) (by simp [initialForest, hctf])
    exact ⟨_, hok⟩
  · show ccInsert (ccInsert ccEmpty 'a' [false]) 'b' [true] 'a' = some [false]
    simp [ccInsert, ccEmpty]

/-- Witness for C7 at the table {'a' ↦ 0}: construction succeeds. -/
theorem claim_C7_witness :
    (∃ t, growCtf [('a', 0)] = .ok t) :=
  claim_C7.1 [('a', 0)] (by simp)

end Huff

namespace Huff

/-- Assigning codes rewrites the root's leaf through `set_code`. -/
theorem setBranchCodes_leaf (pc : Option (List Bool)) (t : HuffBranch) :
    (setBranchCodes pc t).leaf = setCodeLeaf pc t.posInParent t.leaf := by
  cases t <;> rfl

/-- Assigning codes never changes a node's position. -/
theorem setBranchCodes_pos (pc : Option (List Bool)) (t : HuffBranch) :
    (setBranchCodes pc t).posInParent = t.posInParent := by
  cases t <;> rfl

/-- Setting the position leaves the leaf unchanged. -/
theorem setPosInParent_leaf (t : HuffBranch) (i : Nat) :
    (t.setPosInParent i).leaf = t.leaf := by
  cases t <;> rfl

/-- Setting the position stores it. -/
theorem setPosInParent_pos (t : HuffBranch) (i : Nat) :
    (t.setPosInParent i).posInParent = some i := by
  cases t <;> rfl

/-- `WellPos` only constrains the children, so setting the root's position
preserves it. -/
theorem wellPos_setPosInParent (t : HuffBranch) (i : Nat) (h : WellPos t) :
    WellPos (t.setPosInParent i) := by
  cases t with
  | terminal lf pos => trivial
  | internal lf pos c0 c1 => exact h

/-- `CodesNone` ignores positions. -/
theorem codesNone_setPosInParent (t : HuffBranch) (i : Nat) (h : CodesNone t) :
    CodesNone (t.setPosInParent i) := by
  cases t with
  | terminal lf pos => exact h
  | internal lf pos c0 c1 => exact h

/-- `TerminalChars` ignores positions. -/
theorem terminalChars_setPosInParent (t : HuffBranch) (i : Nat)
    (h : TerminalChars t) : TerminalChars (t.setPosInParent i) := by
  cases t with
  | terminal lf pos => exact h
  | internal lf pos c0 c1 => exact h

/-- Code assignment keeps positions, hence keeps `WellPos`. -/
theorem wellPos_setBranchCodes (t : HuffBranch) :
    WellPos t → ∀ pc, WellPos (setBranchCodes pc t) := by
  induction t with
  | terminal lf pos => intro _ _; trivial
  | internal lf pos c0 c1 ih0 ih1 =>
    intro hw pc
    obtain ⟨h0, h1, hw0, hw1⟩ := hw
    exact ⟨by rw [setBranchCodes_pos, h0], by rw [setBranchCodes_pos, h1],
      ih0 hw0 _, ih1 hw1 _⟩

/-- Code assignment keeps letters, hence keeps `TerminalChars`. -/
theorem terminalChars_setBranchCodes (t : HuffBranch) :
    TerminalChars t → ∀ pc, TerminalChars (setBranchCodes pc t) := by
  induction t with
  | terminal lf pos =>
    intro h pc
    cases hpos : pos <;> simp [setBranchCodes, setCodeLeaf, TerminalChars] at h ⊢ <;>
      exact h
  | internal lf pos c0 c1 ih0 ih1 =>
    intro h pc
    obtain ⟨hc, h0, h1⟩ := h
    refine ⟨?_, ih0 h0 _, ih1 h1 _⟩
    cases pos <;> simp [setCodeLeaf, hc]

/-- Central property of the code-assignment pass: in a `WellPos` tree, the
code stored at the node reached by a non-empty direction list `p` is the
root's code followed by exactly the bits of `p`. -/
theorem setBranchCodes_code_at (t : HuffBranch) :
    WellPos t → ∀ pc p n, p ≠ [] →
      nodeAt (setBranchCodes pc t) p = some n →
      n.codeOf = some (((setCodeLeaf pc t.posInParent t.leaf).code.getD []) ++ p) := by
  induction t with
  | terminal lf pos =>
    intro _ pc p n hp hn
    cases p with
    | nil => exact absurd rfl hp
    | cons d q => exact absurd hn (by simp [setBranchCodes, nodeAt])
  | internal lf pos c0 c1 ih0 ih1 =>
    intro hw pc p n hp hn
    obtain ⟨h0, h1, hw0, hw1⟩ := hw
    cases p with
    | nil => exact absurd rfl hp
    | cons d q =>
      simp only [HuffBranch.posInParent, HuffBranch.leaf]
      cases d with
      | false =>
        have hn2 : nodeAt (setBranchCodes (setCodeLeaf pc pos lf).code c0) q
            = some n := hn
        cases q with
        | nil =>
          simp only [nodeAt, Option.some.injEq] at hn2
          subst hn2
          show (setBranchCodes _ c0).leaf.code = _
          rw [setBranchCodes_leaf, h0]
          simp [setCodeLeaf, codeBits]
        | cons e q2 =>
          have hc := ih0 hw0 (setCodeLeaf pc pos lf).code (e :: q2) n
            (by simp) hn2
          rw [hc, h0]
          simp [setCodeLeaf, codeBits]
      | true =>
        have hn2 : nodeAt (setBranchCodes (setCodeLeaf pc pos lf).code c1) q
            = some n := hn
        cases q with
        | nil =>
          simp only [nodeAt, Option.some.injEq] at hn2
          subst hn2
          show (setBranchCodes _ c1).leaf.code = _
          rw [setBranchCodes_leaf, h1]
          simp [setCodeLeaf, codeBits]
        | cons e q2 =>
          have hc := ih1 hw1 (setCodeLeaf pc pos lf).code (e :: q2) n
            (by simp) hn2
          rw [hc, h1]
          simp [setCodeLeaf, codeBits]

/-- In a `WellPos` tree, the node reached by descending `p` and then one
final direction `d` stores `pos_in_parent = d` (as 0/1). -/
theorem nodeAt_pos_of_wellPos :
    ∀ (p : List Bool) (t : HuffBranch), WellPos t →
      ∀ d m, nodeAt t (p ++ [d]) = some m →
        m.posInParent = some (if d then 1 else 0) := by
  intro p
  induction p with
  | nil =>
    intro t hw d m hm
    rw [List.nil_append] at hm
    cases t with
    | terminal lf pos => cases d <;> exact absurd hm (by simp [nodeAt])
    | internal lf pos c0 c1 =>
      obtain ⟨h0, h1, -, -⟩ := hw
      cases d with
      | false =>
        simp only [nodeAt, Option.some.injEq] at hm
        subst hm; exact h0
      | true =>
        simp only [nodeAt, Option.some.injEq] at hm
        subst hm; exact h1
  | cons e p2 ih =>
    intro t hw d m hm
    cases t with
    | terminal lf pos => cases e <;> exact absurd hm (by simp [nodeAt])
    | internal lf pos c0 c1 =>
      obtain ⟨-, -, hw0, hw1⟩ := hw
      cases e with
      | false => exact ih c0 hw0 d m hm
      | true => exact ih c1 hw1 d m hm

/-- Descending a concatenated path descends both parts in order. -/
theorem nodeAt_append :
    ∀ (p : List Bool) (t : HuffBranch) (q : List Bool),
      nodeAt t (p ++ q) = (nodeAt t p).bind (fun n => nodeAt n q) := by
  intro p
  induction p with
  | nil => intro t q; simp [nodeAt]
  | cons d p2 ih =>
    intro t q
    cases t with
    | terminal lf pos => cases d <;> simp [nodeAt]
    | internal lf pos c0 c1 => cases d <;> simp [nodeAt, ih]

end Huff

namespace Huff

/-- Popping the minimum is a permutation: the popped branch together with
the remainder is exactly the input collection. -/
theorem popMinFrom_perm :
    ∀ (l : List HuffBranch) (x : HuffBranch),
      ((popMinFrom x l).1 :: (popMinFrom x l).2).Perm (x :: l) := by
  intro l
  induction l with
  | nil => intro x; exact List.Perm.refl _
  | cons y ys ih =>
    intro x
    by_cases h : y.freqOf < x.freqOf
    · simp only [popMinFrom, if_pos h]
      exact (List.Perm.swap x (popMinFrom y ys).1 _).trans
        (List.Perm.cons x (ih y))
    · simp only [popMinFrom, if_neg h]
      refine (List.Perm.swap y (popMinFrom x ys).1 _).trans ?_
      exact ((List.Perm.cons y (ih x)).trans (List.Perm.swap x y ys)).symm.symm

/-- The popped branch has minimal frequency among the scanned branches. -/
theorem popMinFrom_le :
    ∀ (l : List HuffBranch) (x : HuffBranch),
      (popMinFrom x l).1.freqOf ≤ x.freqOf ∧
        ∀ b ∈ l, (popMinFrom x l).1.freqOf ≤ b.freqOf := by
  intro l
  induction l with
  | nil => intro x; exact ⟨le_refl _, by simp⟩
  | cons y ys ih =>
    intro x
    by_cases h : y.freqOf < x.freqOf
    · simp only [popMinFrom, if_pos h]
      refine ⟨le_of_lt (lt_of_le_of_lt (ih y).1 h), ?_⟩
      intro b hb
      rcases List.mem_cons.mp hb with heq | hb
      · rw [heq]; exact (ih y).1
      · exact (ih y).2 b hb
    · simp only [popMinFrom, if_neg h]
      refine ⟨(ih x).1, ?_⟩
      intro b hb
      rcases List.mem_cons.mp hb with heq | hb
      · rw [heq]; exact le_trans (ih x).1 (le_of_not_lt h)
      · exact (ih x).2 b hb

/-- The popped branch is not larger than anything left in the remainder. -/
theorem popMinFrom_min_rest (x : HuffBranch) (l : List HuffBranch) :
    ∀ b ∈ (popMinFrom x l).2, (popMinFrom x l).1.freqOf ≤ b.freqOf := by
  intro b hb
  have hmem : b ∈ x :: l :=
    (popMinFrom_perm l x).mem_iff.mp (List.mem_cons_of_mem _ hb)
  rcases List.mem_cons.mp hmem with heq | hmem
  · rw [heq]; exact (popMinFrom_le l x).1
  · exact (popMinFrom_le l x).2 b hmem

/-- Members of the pop result were members of the input. -/
theorem popMinFrom_mem (x : HuffBranch) (l : List HuffBranch) :
    (popMinFrom x l).1 ∈ x :: l ∧ ∀ b ∈ (popMinFrom x l).2, b ∈ x :: l := by
  constructor
  · exact (popMinFrom_perm l x).mem_iff.mp (List.mem_cons_self _ _)
  · intro b hb
    exact (popMinFrom_perm l x).mem_iff.mp (List.mem_cons_of_mem _ hb)

/-- Any per-branch property preserved by `mergeBranch` holds for every
branch the merge loop produces, provided it held initially. -/
theorem growLoop_preserves (P : HuffBranch → Prop)
    (hP : ∀ a b, P a → P b → P (mergeBranch a b)) :
    ∀ (fuel : Nat) (l : List HuffBranch), (∀ b ∈ l, P b) →
      ∀ b ∈ growLoop fuel l, P b := by
  intro fuel
  induction fuel with
  | zero => intro l hl; simpa [growLoop] using hl
  | succ n ih =>
    intro l hl
    match l with
    | [] => simp [growLoop]
    | [t] => simpa [growLoop] using hl
    | x :: y :: ys =>
      rw [growLoop]
      rcases hrest : (popMinFrom x (y :: ys)).2 with _ | ⟨z, zs⟩
      · intro b hb
        simp only [hrest, List.mem_singleton] at hb
        subst hb
        exact hl _ ((popMinFrom_mem x (y :: ys)).1)
      · simp only [hrest]
        have hmins : ∀ b ∈ z :: zs, P b := by
          intro b hb
          have := (popMinFrom_mem x (y :: ys)).2 b (hrest ▸ hb)
          exact hl _ this
        have ha : P (popMinFrom x (y :: ys)).1 :=
          hl _ (popMinFrom_mem x (y :: ys)).1
        have hb2 : P (popMinFrom z zs).1 :=
          hmins _ (popMinFrom_mem z zs).1
        refine ih _ ?_
        intro b hb
        rcases List.mem_append.mp hb with hb | hb
        · exact hmins _ ((popMinFrom_mem z zs).2 b hb)
        · rw [List.mem_singleton.mp hb]
          exact hP _ _ ha hb2

/-- The branch-level invariant every heap element enjoys during `grow_ctf`:
no position at the root, positions 0/1 below every internal node, no codes
assigned yet, letters exactly at terminal nodes. -/
def HeapInv (b : HuffBranch) : Prop :=
  b.posInParent = none ∧ WellPos b ∧ CodesNone b ∧ TerminalChars b

/-- Merging two invariant-satisfying branches yields one. -/
theorem heapInv_mergeBranch (a b : HuffBranch)
    (ha : HeapInv a) (hb : HeapInv b) : HeapInv (mergeBranch a b) := by
  obtain ⟨-, hwa, hca, hta⟩ := ha
  obtain ⟨-, hwb, hcb, htb⟩ := hb
  refine ⟨rfl, ?_, ?_, ?_⟩
  · exact ⟨setPosInParent_pos a 0, setPosInParent_pos b 1,
      wellPos_setPosInParent a 0 hwa, wellPos_setPosInParent b 1 hwb⟩
  · exact ⟨rfl, codesNone_setPosInParent a 0 hca,
      codesNone_setPosInParent b 1 hcb⟩
  · exact ⟨rfl, terminalChars_setPosInParent a 0 hta,
      terminalChars_setPosInParent b 1 htb⟩

/-- Every branch of the initial forest satisfies the heap invariant. -/
theorem heapInv_initialForest (ctf : List (Char × Nat)) :
    ∀ b ∈ initialForest ctf, HeapInv b := by
  intro b hb
  obtain ⟨e, -, rfl⟩ := List.mem_map.mp hb
  exact ⟨rfl, trivial, rfl, rfl⟩

/-- Inversion of a successful `grow_ctf` run: the tree is the coded form
of the sole branch surviving the merge loop, and that branch satisfies the
heap invariant. -/
theorem growCtf_ok_inv (ctf : List (Char × Nat)) (T : HuffTree)
    (h : growCtf ctf = .ok T) :
    ∃ r0 rest,
      growLoop (initialForest ctf).length (initialForest ctf) = r0 :: rest ∧
      HeapInv r0 ∧
      T.root = some (setBranchCodes none r0) ∧
      T.charCodes = setCharCodes (setBranchCodes none r0) ccEmpty := by
  have hctf : ctf ≠ [] := by
    rintro rfl; exact absurd h (by simp [growCtf, initialForest])
  rw [growCtf_eq_heap ctf hctf] at h
  obtain ⟨r, rest, hg, hok⟩ :=
    growCtfHeap_ok (initialForest ctf) (by simp [initialForest, hctf])
  rw [hok] at h
  cases h
  refine ⟨r, rest, hg, ?_, rfl, rfl⟩
  exact growLoop_preserves HeapInv heapInv_mergeBranch _ _
    (heapInv_initialForest ctf) r (hg ▸ List.mem_cons_self _ _)

end Huff

namespace Huff

/-- In a codeless tree the root's leaf stores no code. -/
theorem codesNone_root (t : HuffBranch) (h : CodesNone t) :
    t.leaf.code = none := by
  cases t with
  | terminal lf pos => exact h
  | internal lf pos c0 c1 => exact h.1

/-- After code assignment on a heap-invariant branch, the node at any
non-empty direction list stores precisely that direction list as its code. -/
theorem grown_code_at (r0 : HuffBranch) (hinv : HeapInv r0) :
    ∀ p n, p ≠ [] → nodeAt (setBranchCodes none r0) p = some n →
      n.codeOf = some p := by
  obtain ⟨hpos0, hwp, hcn, -⟩ := hinv
  intro p n hp hn
  have hform := setBranchCodes_code_at r0 hwp none p n hp hn
  rw [hpos0] at hform
  simpa [setCodeLeaf, codesNone_root r0 hcn] using hform

/-- Claim C2: in a grown tree, the code stored at every node reached by a
non-empty direction list `p` from the root is exactly `p` — each child's
code is its parent's code extended by the bit of the child's
`pos_in_parent`, which under the grown trees' position discipline equals
the descent direction — and hence every stored code's length equals the
node's depth. -/
theorem claim_C2 (ctf : List (Char × Nat)) (T : HuffTree) (r : HuffBranch)
    (hok : growCtf ctf = .ok T) (hr : T.root = some r) :
    (∀ p n, p ≠ [] → nodeAt r p = some n → n.codeOf = some p)
    ∧ (∀ p d m, nodeAt r (p ++ [d]) = some m →
        m.posInParent = some (if d then 1 else 0))
    ∧ (∀ p n c, nodeAt r p = some n → n.codeOf = some c →
        c.length = p.length) := by
  obtain ⟨r0, rest, hg, hinv, hroot, hcc⟩ := growCtf_ok_inv ctf T hok
  rw [hroot, Option.some.injEq] at hr
  subst hr
  have hmain := grown_code_at r0 hinv
  obtain ⟨hpos0, hwp, hcn, -⟩ := hinv
  refine ⟨hmain, ?_, ?_⟩
  · intro p d m
    exact nodeAt_pos_of_wellPos p _ (wellPos_setBranchCodes r0 hwp none) d m
  · intro p n c hn hc
    cases p with
    | nil =>
      simp only [nodeAt, Option.some.injEq] at hn
      subst hn
      rw [HuffBranch.codeOf, setBranchCodes_leaf, hpos0] at hc
      rw [show setCodeLeaf none none r0.leaf = r0.leaf from rfl] at hc
      rw [codesNone_root r0 hcn] at hc
      cases hc
    | cons d q =>
      have := hmain (d :: q) n (by simp) hn
      rw [this, Option.some.injEq] at hc
      rw [hc]

/-- Witness for C2 on the table {'a' ↦ 1, 'b' ↦ 2}: the leaf reached by
the single direction `false` (the letter-'a' leaf) stores exactly the code
`[false]`. -/
theorem claim_C2_witness :
    (HuffBranch.terminal ⟨some 'a', 1, some [false]⟩ (some 0)).codeOf
      = some [false] :=
  (claim_C2 [('a', 1), ('b', 2)]
    ⟨some (.internal ⟨none, 3, none⟩ none
        (.terminal ⟨some 'a', 1, some [false]⟩ (some 0))
        (.terminal ⟨some 'b', 2, some [true]⟩ (some 1))),
      ccInsert (ccInsert ccEmpty 'a' [false]) 'b' [true]⟩
    (.internal ⟨none, 3, none⟩ none
      (.terminal ⟨some 'a', 1, some [false]⟩ (some 0))
      (.terminal ⟨some 'b', 2, some [true]⟩ (some 1)))
    rfl rfl).1 [false] _ (by simp) rfl

end Huff

namespace Huff

/-- Every entry the char-code collection pass produces on a letter-sound
tree either was already in the accumulator or comes from a terminal node
of the tree: at the root itself with the conventional code "0", or at a
non-empty path carrying that letter and its stored code. -/
theorem setCharCodes_entries (t : HuffBranch) :
    TerminalChars t → ∀ (m : CharCodes) (c : Char) (v : List Bool),
      setCharCodes t m c = some v →
      m c = some v ∨
      ∃ p lf pos, nodeAt t p = some (.terminal lf pos) ∧
        lf.character = some c ∧
        ((p = [] ∧ v = [false]) ∨ (p ≠ [] ∧ lf.code.getD [] = v)) := by
  induction t with
  | terminal lf pos =>
    intro htc m c v hsc
    simp only [TerminalChars] at htc
    rcases hch : lf.character with _ | ch
    · rw [hch] at htc; cases htc
    · rw [show setCharCodes (.terminal lf pos) m = ccInsert m ch [false] from
        by rw [setCharCodes, hch]; rfl] at hsc
      simp only [ccInsert] at hsc
      by_cases hc : c = ch
      · subst hc
        rw [if_pos rfl, Option.some.injEq] at hsc
        exact Or.inr ⟨[], lf, pos, rfl, hch, Or.inl ⟨rfl, hsc.symm⟩⟩
      · rw [if_neg hc] at hsc
        exact Or.inl hsc
  | internal lf pos c0 c1 ih0 ih1 =>
    intro htc m c v hsc
    obtain ⟨-, htc0, htc1⟩ := htc
    -- analysis of the first child's contribution
    have hm0 : ∀ w : List Bool,
        (match c0.letterOf with
          | some ch => ccInsert m ch (c0.codeOf.getD [])
          | none => setCharCodes c0 m) c = some w →
        m c = some w ∨
        ∃ p lf2 pos2, nodeAt (HuffBranch.internal lf pos c0 c1) p
            = some (.terminal lf2 pos2) ∧
          lf2.character = some c ∧ p ≠ [] ∧ lf2.code.getD [] = w := by
      intro w hw
      rcases h0 : c0.letterOf with _ | ch0
      · rw [h0] at hw
        rcases ih0 htc0 m c w hw with hleft | ⟨q, lf2, pos2, hq, hqc, hrest⟩
        · exact Or.inl hleft
        · rcases hrest with ⟨rfl, -⟩ | ⟨hq0, hqv⟩
          · -- the child is terminal at its own root, but then it carries a
            -- letter, contradicting `letterOf = none`
            cases c0 with
            | terminal lf3 pos3 =>
              simp only [nodeAt, Option.some.injEq] at hq
              injection hq with he1 he2
              subst he1
              rw [HuffBranch.letterOf] at h0
              rw [show (HuffBranch.terminal lf3 pos3).leaf = lf3 from rfl] at h0
              rw [h0] at hqc
              cases hqc
            | internal lf3 pos3 d0 d1 =>
              simp only [nodeAt, Option.some.injEq] at hq
              cases hq
          · exact Or.inr ⟨false :: q, lf2, pos2, hq, hqc, by simp, hqv⟩
      · rw [h0] at hw
        simp only [ccInsert] at hw
        by_cases hc : c = ch0
        · subst hc
          rw [if_pos rfl, Option.some.injEq] at hw
          -- the child carries a letter, so by `TerminalChars` it is terminal
          cases c0 with
          | terminal lf3 pos3 =>
            refine Or.inr ⟨[false], lf3, pos3, rfl, ?_, by simp, ?_⟩
            · exact h0
            · exact hw
          | internal lf3 pos3 d0 d1 =>
            rw [show (HuffBranch.internal lf3 pos3 d0 d1).letterOf
              = lf3.character from rfl] at h0
            rw [htc0.1] at h0
            cases h0
        · rw [if_neg hc] at hw
          exact Or.inl hw
    -- analysis of the whole node: second child processed over `m0`
    rcases h1 : c1.letterOf with _ | ch1
    · rw [show setCharCodes (.internal lf pos c0 c1) m
        = setCharCodes c1 (match c0.letterOf with
            | some ch => ccInsert m ch (c0.codeOf.getD [])
            | none => setCharCodes c0 m) from by rw [setCharCodes, h1]] at hsc
      rcases ih1 htc1 _ c v hsc with hleft | ⟨q, lf2, pos2, hq, hqc, hrest⟩
      · rcases hm0 v hleft with h | ⟨p, lf2, pos2, hp, hpc, hpne, hpv⟩
        · exact Or.inl h
        · exact Or.inr ⟨p, lf2, pos2, hp, hpc, Or.inr ⟨hpne, hpv⟩⟩
      · rcases hrest with ⟨rfl, -⟩ | ⟨hq0, hqv⟩
        · cases c1 with
          | terminal lf3 pos3 =>
            simp only [nodeAt, Option.some.injEq] at hq
            injection hq with he1 he2
            subst he1
            rw [HuffBranch.letterOf] at h1
            rw [show (HuffBranch.terminal lf3 pos3).leaf = lf3 from rfl] at h1
            rw [h1] at hqc
            cases hqc
          | internal lf3 pos3 d0 d1 =>
            simp only [nodeAt, Option.some.injEq] at hq
            cases hq
        · exact Or.inr ⟨true :: q, lf2, pos2, hq, hqc,
            Or.inr ⟨by simp, hqv⟩⟩
    · rw [show setCharCodes (.internal lf pos c0 c1) m
        = ccInsert (match c0.letterOf with
            | some ch => ccInsert m ch (c0.codeOf.getD [])
            | none => setCharCodes c0 m) ch1 (c1.codeOf.getD []) from
          by rw [setCharCodes, h1]] at hsc
      simp only [ccInsert] at hsc
      by_cases hc : c = ch1
      · subst hc
        rw [if_pos rfl, Option.some.injEq] at hsc
        cases c1 with
        | terminal lf3 pos3 =>
          exact Or.inr ⟨[true], lf3, pos3, rfl, h1, Or.inr ⟨by simp, hsc⟩⟩
        | internal lf3 pos3 d0 d1 =>
          rw [show (HuffBranch.internal lf3 pos3 d0 d1).letterOf
            = lf3.character from rfl] at h1
          rw [htc1.1] at h1
          cases h1
      · rw [if_neg hc] at hsc
        rcases hm0 v hsc with h | ⟨p, lf2, pos2, hp, hpc, hpne, hpv⟩
        · exact Or.inl h
        · exact Or.inr ⟨p, lf2, pos2, hp, hpc, Or.inr ⟨hpne, hpv⟩⟩

end Huff

namespace Huff

/-- Claim C4: for distinct letters `x` and `y` in the code table of a
grown tree, the code of `x` is not a prefix of the code of `y` (stated as:
`y`'s code is not `x`'s code followed by any suffix). -/
theorem claim_C4 (ctf : List (Char × Nat)) (T : HuffTree)
    (hok : growCtf ctf = .ok T) (x y : Char) (cx cy : List Bool)
    (hxy : x ≠ y) (hx : T.charCodes x = some cx)
    (hy : T.charCodes y = some cy) :
    ∀ s, cy ≠ cx ++ s := by
  obtain ⟨r0, rest, hg, hinv, hroot, hcc⟩ := growCtf_ok_inv ctf T hok
  rw [hcc] at hx hy
  cases r0 with
  | terminal lf0 pos0 =>
    rw [show setCharCodes (setBranchCodes none (.terminal lf0 pos0)) ccEmpty
      = ccInsert ccEmpty ((setCodeLeaf none pos0 lf0).character.getD default)
        [false] from rfl] at hx hy
    simp only [ccInsert, ccEmpty] at hx hy
    by_cases hxc : x = (setCodeLeaf none pos0 lf0).character.getD default
    · by_cases hyc : y = (setCodeLeaf none pos0 lf0).character.getD default
      · exact absurd (hxc.trans hyc.symm) hxy
      · rw [if_neg hyc] at hy; cases hy
    · rw [if_neg hxc] at hx; cases hx
  | internal lf0 pos0 d0 d1 =>
    have htc : TerminalChars (setBranchCodes none (.internal lf0 pos0 d0 d1)) :=
      terminalChars_setBranchCodes _ hinv.2.2.2 none
    have hca := grown_code_at _ hinv
    rcases setCharCodes_entries _ htc ccEmpty x cx hx with hbad |
      ⟨px, lfx, posx, hpx, hpxc, hrx⟩
    · cases hbad
    rcases setCharCodes_entries _ htc ccEmpty y cy hy with hbad |
      ⟨py, lfy, posy, hpy, hpyc, hry⟩
    · cases hbad
    rcases hrx with ⟨rfl, -⟩ | ⟨hpxne, hpxv⟩
    · exact absurd (Option.some.inj hpx) (by simp [setBranchCodes])
    rcases hry with ⟨rfl, -⟩ | ⟨hpyne, hpyv⟩
    · exact absurd (Option.some.inj hpy) (by simp [setBranchCodes])
    have hcx : lfx.code = some px := hca px _ hpxne hpx
    have hcy : lfy.code = some py := hca py _ hpyne hpy
    rw [hcx] at hpxv
    rw [hcy] at hpyv
    simp only [Option.getD_some] at hpxv hpyv
    subst hpxv
    subst hpyv
    intro s hcon
    rw [hcon] at hpy
    rw [nodeAt_append, hpx] at hpy
    cases s with
    | nil =>
      simp only [Option.bind_some, nodeAt, Option.some.injEq] at hpy
      injection hpy with he1 he2
      rw [he1] at hpxc
      rw [hpxc] at hpyc
      exact hxy (Option.some.inj hpyc)
    | cons d s2 =>
      cases d <;> simp [nodeAt] at hpy

/-- Witness for C4 on the table {'a' ↦ 1, 'b' ↦ 2}: the code of 'b'
(`[true]`) is not the code of 'a' (`[false]`) followed by the empty
suffix. -/
theorem claim_C4_witness : ([true] : List Bool) ≠ [false] ++ [] :=
  claim_C4 [('a', 1), ('b', 2)]
    ⟨some (.internal ⟨none, 3, none⟩ none
        (.terminal ⟨some 'a', 1, some [false]⟩ (some 0))
        (.terminal ⟨some 'b', 2, some [true]⟩ (some 1))),
      ccInsert (ccInsert ccEmpty 'a' [false]) 'b' [true]⟩
    rfl 'a' 'b' [false] [true] (by decide)
    (by simp [ccInsert, ccEmpty]) (by simp [ccInsert]) []

end Huff

namespace Huff

/-- Modelled from the spec: the Tree Reducer's transition rule (§4.2),
applied while more than one node remains in the priority container — pop
the two lowest-weight nodes, `a` first and `b` second, set
`a.pos_in_parent = 0` and `b.pos_in_parent = 1`, and push back a new
internal branch owning `[a, b]` in that order with `letter = None` and
`weight = a.weight + b.weight` (all packaged in `mergeBranch`).  The pop
order among equal weights is deliberately left unspecified (§4.2, §9): any
choice of two minima is a legal step, so the relation covers every
tie-break resolution. -/
inductive Step : Multiset HuffBranch → Multiset HuffBranch → Prop where
  | merge (a b : HuffBranch) (rest : Multiset HuffBranch)
      (hab : a.freqOf ≤ b.freqOf)
      (ha : ∀ x ∈ rest, a.freqOf ≤ x.freqOf)
      (hb : ∀ x ∈ rest, b.freqOf ≤ x.freqOf) :
      Step (a ::ₘ b ::ₘ rest) (mergeBranch a b ::ₘ rest)

/-- Any number of Tree Reducer transitions. -/
def Reduces : Multiset HuffBranch → Multiset HuffBranch → Prop :=
  Relation.ReflTransGen Step

/-- Popping does not change the total number of branches. -/
theorem popMinFrom_length (x : HuffBranch) (l : List HuffBranch) :
    (popMinFrom x l).2.length = l.length := by
  have h := (popMinFrom_perm l x).length_eq
  simpa using h

/-- With fuel at least the list length minus one, the merge loop reaches a
single surviving branch. -/
theorem growLoop_len :
    ∀ (fuel : Nat) (l : List HuffBranch), l.length ≤ fuel + 1 →
      (growLoop fuel l).length ≤ 1 := by
  intro fuel
  induction fuel with
  | zero =>
    intro l hl
    simpa [growLoop] using hl
  | succ n ih =>
    intro l hl
    match l with
    | [] => simp [growLoop]
    | [t] => simp [growLoop]
    | x :: y :: ys =>
      rw [growLoop]
      rcases hrest : (popMinFrom x (y :: ys)).2 with _ | ⟨z, zs⟩
      · simp
      · simp only []
        apply ih
        have h1 : (popMinFrom x (y :: ys)).2.length = ys.length + 1 :=
          popMinFrom_length x (y :: ys)
        rw [hrest] at h1
        have h2 : (popMinFrom z zs).2.length = zs.length :=
          popMinFrom_length z zs
        simp only [List.length_append, List.length_cons, List.length_nil] at *
        omega

/-- The deterministic merge loop is a run of the spec's Tree Reducer: its
result multiset is reachable from its input multiset. -/
theorem growLoop_reduces :
    ∀ (fuel : Nat) (l : List HuffBranch),
      Reduces (↑l) (↑(growLoop fuel l)) := by
  intro fuel
  induction fuel with
  | zero => intro l; exact Relation.ReflTransGen.refl
  | succ n ih =>
    intro l
    match l with
    | [] => exact Relation.ReflTransGen.refl
    | [t] => exact Relation.ReflTransGen.refl
    | x :: y :: ys =>
      rw [growLoop]
      rcases hrest : (popMinFrom x (y :: ys)).2 with _ | ⟨z, zs⟩
      · have hperm := popMinFrom_perm (y :: ys) x
        rw [hrest] at hperm
        have := hperm.length_eq
        simp at this
      · simp only []
        have hperm1 := popMinFrom_perm (y :: ys) x
        rw [hrest] at hperm1
        have hperm2 := popMinFrom_perm zs z
        have heq1 : (↑(x :: y :: ys) : Multiset HuffBranch)
            = (popMinFrom x (y :: ys)).1 ::ₘ
              (popMinFrom z zs).1 ::ₘ ↑(popMinFrom z zs).2 := by
          rw [Multiset.cons_coe, Multiset.cons_coe, Multiset.coe_eq_coe]
          exact hperm1.symm.trans (List.Perm.cons _ hperm2.symm)
        have heq2 : (↑((popMinFrom z zs).2
              ++ [mergeBranch (popMinFrom x (y :: ys)).1 (popMinFrom z zs).1])
              : Multiset HuffBranch)
            = mergeBranch (popMinFrom x (y :: ys)).1 (popMinFrom z zs).1 ::ₘ
              ↑(popMinFrom z zs).2 := by
          rw [Multiset.cons_coe, Multiset.coe_eq_coe]
          exact List.perm_append_singleton _ _
        refine Relation.ReflTransGen.head ?_ (ih _)
        rw [heq1, heq2]
        refine Step.merge _ _ _ ?_ ?_ ?_
        · have hz : (popMinFrom z zs).1 ∈ z :: zs := (popMinFrom_mem z zs).1
          exact popMinFrom_min_rest x (y :: ys) _ (hrest ▸ hz)
        · intro w hw
          rw [Multiset.mem_coe] at hw
          have hw2 : w ∈ z :: zs := (popMinFrom_mem z zs).2 w hw
          exact popMinFrom_min_rest x (y :: ys) w (hrest ▸ hw2)
        · intro w hw
          rw [Multiset.mem_coe] at hw
          exact popMinFrom_min_rest z zs w hw

end Huff

namespace Huff

/-- Claim C1: for every weight table with at least two entries, `grow_ctf`
performs exactly the spec's reduction — starting from one terminal branch
per entry, repeatedly popping two minimal-weight branches `a` then `b`,
assigning them `pos_in_parent` 0 and 1, and pushing an internal branch
with `letter = None`, children `[a, b]` in that order and the summed
weight (a `Step` of the Tree Reducer) — until exactly one branch remains,
which becomes the tree's root (then passed through the code-assignment
pass). -/
theorem claim_C1 (ctf : List (Char × Nat)) (h2 : 2 ≤ ctf.length) :
    ∃ r0 : HuffBranch,
      Reduces (↑(initialForest ctf)) {r0} ∧
      growCtf ctf = .ok ⟨some (setBranchCodes none r0),
        setCharCodes (setBranchCodes none r0) ccEmpty⟩ := by
  have hne : ctf ≠ [] := by
    intro h; rw [h] at h2; simp at h2
  obtain ⟨r0, rest, hg, hok⟩ :=
    growCtfHeap_ok (initialForest ctf) (by simp [initialForest, hne])
  refine ⟨r0, ?_, ?_⟩
  · have hred := growLoop_reduces (initialForest ctf).length (initialForest ctf)
    rw [hg] at hred
    have hlen := growLoop_len (initialForest ctf).length (initialForest ctf)
      (Nat.le_succ _)
    rw [hg] at hlen
    simp only [List.length_cons] at hlen
    have hrest : rest = [] := by
      cases rest with
      | nil => rfl
      | cons h t => simp at hlen
    subst hrest
    rw [show ({r0} : Multiset HuffBranch) = ↑[r0] from rfl]
    exact hred
  · rw [growCtf_eq_heap ctf hne, hok]

/-- Witness for C1 on the table {'a' ↦ 1, 'b' ↦ 2}: its initial forest
reduces to a single root and `grow_ctf` returns that root. -/
theorem claim_C1_witness :
    ∃ r0 : HuffBranch,
      Reduces (↑(initialForest [('a', 1), ('b', 2)])) {r0} ∧
      growCtf [('a', 1), ('b', 2)] = .ok ⟨some (setBranchCodes none r0),
        setCharCodes (setBranchCodes none r0) ccEmpty⟩ :=
  claim_C1 [('a', 1), ('b', 2)] (by simp)

end Huff

namespace Huff

/-- A terminal node with payload `lf` sits at path `p` of `t`. -/
def LeafAt (t : HuffBranch) (p : List Bool) (lf : HuffLeaf) : Prop :=
  ∃ pos, nodeAt t p = some (.terminal lf pos)

/-- Stored weights are consistent: every internal node stores the sum of
its children's stored weights (true of every branch `grow_ctf` builds,
since `mergeBranch` stores exactly the sum). -/
def SumOk : HuffBranch → Prop
  | .terminal _ _ => True
  | .internal lf _ c0 c1 =>
    lf.frequency = c0.freqOf + c1.freqOf ∧ SumOk c0 ∧ SumOk c1

/-- The stored frequency of the ancestor of the node at path `p` sitting
`i` levels above it (`i = 0` is the node itself, `i = p.length` the root). -/
def ancFreq (t : HuffBranch) (p : List Bool) (i : Nat) : Nat :=
  match nodeAt t (p.take (p.length - i)) with
  | some n => n.freqOf
  | none => 0

/-- Within one tree, a leaf of strictly larger weight is never strictly
deeper (code-length monotonicity at the tree level). -/
def MonoT (t : HuffBranch) : Prop :=
  ∀ px py lfx lfy, LeafAt t px lfx → LeafAt t py lfy →
    lfy.frequency < lfx.frequency → px.length ≤ py.length

/-- Cross-tree invariant between two distinct forest trees: whenever a
leaf of `t` outweighs a leaf of `u`, it is not deeper, and every ancestor
of the `t`-leaf strictly outweighs the same-level ancestor of the
`u`-leaf. -/
def CrossT (t u : HuffBranch) : Prop :=
  ∀ px py lfx lfy, LeafAt t px lfx → LeafAt u py lfy →
    lfy.frequency < lfx.frequency →
    px.length ≤ py.length ∧
    ∀ i ≤ px.length, ancFreq u py i < ancFreq t px i

/-- Every strictly-below-the-root node of any forest tree weighs at most
every root in the forest. -/
def ForestMin (F : Multiset HuffBranch) : Prop :=
  ∀ t ∈ F, ∀ p c, p ≠ [] → nodeAt t p = some c →
    ∀ u ∈ F, c.freqOf ≤ u.freqOf

/-- Cross-tree invariant over every ordered pair of distinct forest
members (distinct occurrences, via multiset decomposition). -/
def ForestCross (F : Multiset HuffBranch) : Prop :=
  ∀ t u s, F = t ::ₘ u ::ₘ s → CrossT t u

/-- The full forest invariant maintained by the Tree Reducer. -/
def ForestInv (F : Multiset HuffBranch) : Prop :=
  (∀ t ∈ F, HeapInv t ∧ SumOk t ∧ MonoT t) ∧ ForestMin F ∧ ForestCross F

/-- Setting a root position never changes any node frequency reached by a
non-empty path, and the root stays the root. -/
theorem nodeAt_setPos_cons (t : HuffBranch) (i : Nat) (d : Bool)
    (p : List Bool) :
    nodeAt (t.setPosInParent i) (d :: p) = nodeAt t (d :: p) := by
  cases t <;> cases d <;> rfl

/-- Setting a root position keeps the stored frequency. -/
theorem freqOf_setPos (t : HuffBranch) (i : Nat) :
    (t.setPosInParent i).freqOf = t.freqOf := by
  cases t <;> rfl

/-- The merged branch is internal, so no leaf sits at its root. -/
theorem leafAt_merge_nil (a b : HuffBranch) (lf : HuffLeaf) :
    ¬ LeafAt (mergeBranch a b) [] lf := by
  rintro ⟨pos, h⟩
  simp only [mergeBranch, nodeAt] at h
  cases h

/-- Descending `false` from the merged branch enters `a` (with its root
position set). -/
theorem nodeAt_merge_false (a b : HuffBranch) (q : List Bool) :
    nodeAt (mergeBranch a b) (false :: q) = nodeAt (a.setPosInParent 0) q := by
  simp [mergeBranch, nodeAt]

/-- Descending `true` from the merged branch enters `b` (with its root
position set). -/
theorem nodeAt_merge_true (a b : HuffBranch) (q : List Bool) :
    nodeAt (mergeBranch a b) (true :: q) = nodeAt (b.setPosInParent 1) q := by
  simp [mergeBranch, nodeAt]

/-- Setting the root position does not change which leaves sit where. -/
theorem leafAt_setPos (t : HuffBranch) (i : Nat) (q : List Bool)
    (lf : HuffLeaf) :
    LeafAt (t.setPosInParent i) q lf ↔ LeafAt t q lf := by
  cases q with
  | nil =>
    cases t with
    | terminal lfa posa =>
      constructor
      · rintro ⟨pos, h⟩
        simp only [HuffBranch.setPosInParent, nodeAt, Option.some.injEq] at h
        injection h with h1 h2
        subst h1
        exact ⟨posa, by simp [nodeAt]⟩
      · rintro ⟨pos, h⟩
        simp only [nodeAt, Option.some.injEq] at h
        injection h with h1 h2
        subst h1
        exact ⟨some i, by simp [HuffBranch.setPosInParent, nodeAt]⟩
    | internal lfa posa d0 d1 =>
      constructor
      · rintro ⟨pos, h⟩
        simp only [HuffBranch.setPosInParent, nodeAt, Option.some.injEq] at h
        cases h
      · rintro ⟨pos, h⟩
        simp only [nodeAt, Option.some.injEq] at h
        cases h
  | cons e q2 =>
    unfold LeafAt
    rw [nodeAt_setPos_cons]

/-- Leaves of the merged branch below direction `false` are the leaves of
`a`. -/
theorem leafAt_merge_false (a b : HuffBranch) (q : List Bool)
    (lf : HuffLeaf) :
    LeafAt (mergeBranch a b) (false :: q) lf ↔ LeafAt a q lf := by
  unfold LeafAt
  rw [nodeAt_merge_false]
  exact leafAt_setPos a 0 q lf

/-- Leaves of the merged branch below direction `true` are the leaves of
`b`. -/
theorem leafAt_merge_true (a b : HuffBranch) (q : List Bool)
    (lf : HuffLeaf) :
    LeafAt (mergeBranch a b) (true :: q) lf ↔ LeafAt b q lf := by
  unfold LeafAt
  rw [nodeAt_merge_true]
  exact leafAt_setPos b 1 q lf

end Huff

namespace Huff

/-- The topmost ancestor is the root itself. -/
theorem ancFreq_top (t : HuffBranch) (p : List Bool) :
    ancFreq t p p.length = t.freqOf := by
  simp [ancFreq, Nat.sub_self, nodeAt]

/-- The 0-level ancestor of a leaf is the leaf. -/
theorem ancFreq_zero_of_leafAt (t : HuffBranch) (p : List Bool)
    (lf : HuffLeaf) (h : LeafAt t p lf) : ancFreq t p 0 = lf.frequency := by
  obtain ⟨pos, h⟩ := h
  simp [ancFreq, List.take_length, h, HuffBranch.freqOf, HuffBranch.leaf]

/-- Ancestors inside the `a`-part of a merged branch are the ancestors
within `a`, at every level up to `a`'s own root. -/
theorem ancFreq_merge_false (a b : HuffBranch) (q : List Bool) (i : Nat)
    (hi : i ≤ q.length) :
    ancFreq (mergeBranch a b) (false :: q) i = ancFreq a q i := by
  have hlen : (false :: q).length - i = (q.length - i) + 1 := by
    simp only [List.length_cons]
    omega
  rw [ancFreq, ancFreq, hlen, List.take_succ_cons, nodeAt_merge_false]
  rcases htake : q.take (q.length - i) with _ | ⟨e, q2⟩
  · simp [nodeAt, freqOf_setPos]
  · rw [nodeAt_setPos_cons]

/-- Ancestors inside the `b`-part of a merged branch are the ancestors
within `b`, at every level up to `b`'s own root. -/
theorem ancFreq_merge_true (a b : HuffBranch) (q : List Bool) (i : Nat)
    (hi : i ≤ q.length) :
    ancFreq (mergeBranch a b) (true :: q) i = ancFreq b q i := by
  have hlen : (true :: q).length - i = (q.length - i) + 1 := by
    simp only [List.length_cons]
    omega
  rw [ancFreq, ancFreq, hlen, List.take_succ_cons, nodeAt_merge_true]
  rcases htake : q.take (q.length - i) with _ | ⟨e, q2⟩
  · simp [nodeAt, freqOf_setPos]
  · rw [nodeAt_setPos_cons]

/-- Every prefix of a valid path is valid. -/
theorem nodeAt_take_exists (t : HuffBranch) (p : List Bool) (x : HuffBranch)
    (h : nodeAt t p = some x) (k : Nat) :
    ∃ n, nodeAt t (p.take k) = some n := by
  rcases h2 : nodeAt t (p.take k) with _ | n
  · have happ := nodeAt_append (p.take k) t (p.drop k)
    rw [List.take_append_drop, h2] at happ
    rw [h] at happ
    cases happ
  · exact ⟨n, rfl⟩

/-- The ancestor frequency of a leaf's ancestor is realized by an actual
node of the tree. -/
theorem ancFreq_spec (t : HuffBranch) (p : List Bool) (lf : HuffLeaf)
    (h : LeafAt t p lf) (i : Nat) :
    ∃ n, nodeAt t (p.take (p.length - i)) = some n ∧
      ancFreq t p i = n.freqOf := by
  obtain ⟨pos, h⟩ := h
  obtain ⟨n, hn⟩ := nodeAt_take_exists t p _ h (p.length - i)
  exact ⟨n, hn, by rw [ancFreq, hn]⟩

/-- A node with a child at direction `d` is internal, and both its
children sit one step below it. -/
theorem nodeAt_internal_of_snoc (t : HuffBranch) (p : List Bool) (d : Bool)
    (n m : HuffBranch) (hn : nodeAt t p = some n)
    (hm : nodeAt t (p ++ [d]) = some m) :
    ∃ lf pos c0 c1, n = .internal lf pos c0 c1 ∧
      nodeAt t (p ++ [false]) = some c0 ∧
      nodeAt t (p ++ [true]) = some c1 ∧
      ((d = false ∧ m = c0) ∨ (d = true ∧ m = c1)) := by
  have happ := nodeAt_append p t [d]
  rw [hn] at happ
  have happ0 := nodeAt_append p t [false]
  have happ1 := nodeAt_append p t [true]
  rw [hn] at happ0 happ1
  simp only [Option.bind_eq_bind, Option.some_bind] at happ happ0 happ1
  cases n with
  | terminal lfn posn =>
    rw [hm] at happ
    cases d <;> simp [nodeAt] at happ
  | internal lfn posn c0 c1 =>
    refine ⟨lfn, posn, c0, c1, rfl, ?_, ?_, ?_⟩
    · rw [happ0]; simp [nodeAt]
    · rw [happ1]; simp [nodeAt]
    · rw [hm] at happ
      cases d with
      | false =>
        refine Or.inl ⟨rfl, ?_⟩
        simp only [nodeAt] at happ
        exact Option.some.inj happ
      | true =>
        refine Or.inr ⟨rfl, ?_⟩
        simp only [nodeAt] at happ
        exact Option.some.inj happ

/-- Setting a position preserves weight-sum consistency. -/
theorem sumOk_setPos (t : HuffBranch) (i : Nat) (h : SumOk t) :
    SumOk (t.setPosInParent i) := by
  cases t with
  | terminal lf pos => trivial
  | internal lf pos c0 c1 => exact h

/-- Merging two weight-consistent branches stores exactly the sum. -/
theorem sumOk_merge (a b : HuffBranch) (ha : SumOk a) (hb : SumOk b) :
    SumOk (mergeBranch a b) :=
  ⟨by rw [freqOf_setPos, freqOf_setPos], sumOk_setPos a 0 ha,
    sumOk_setPos b 1 hb⟩

/-- Weight-sum consistency descends to every node of the tree. -/
theorem sumOk_nodeAt (t : HuffBranch) :
    SumOk t → ∀ p n, nodeAt t p = some n → SumOk n := by
  induction t with
  | terminal lf pos =>
    intro h p n hn
    cases p with
    | nil =>
      simp only [nodeAt, Option.some.injEq] at hn
      subst hn; trivial
    | cons d q => cases d <;> simp [nodeAt] at hn
  | internal lf pos c0 c1 ih0 ih1 =>
    intro h p n hn
    cases p with
    | nil =>
      simp only [nodeAt, Option.some.injEq] at hn
      subst hn; exact h
    | cons d q =>
      cases d with
      | false => exact ih0 h.2.1 q n hn
      | true => exact ih1 h.2.2 q n hn

end Huff

namespace Huff

/-- One level up from an ancestor, the weight grows by the weight of the
sibling subtree, which hangs strictly below the root. -/
theorem ancFreq_step (u : HuffBranch) (py : List Bool) (lfy : HuffLeaf)
    (hleaf : LeafAt u py lfy) (hsum : SumOk u) (j : Nat)
    (hj1 : 1 ≤ j) (hj2 : j ≤ py.length) :
    ∃ S psib, psib ≠ [] ∧ nodeAt u psib = some S ∧
      ancFreq u py j = ancFreq u py (j - 1) + S.freqOf := by
  obtain ⟨posy, hpy⟩ := hleaf
  set k := py.length - j with hk
  have hklt : k < py.length := by omega
  obtain ⟨n, hn⟩ := nodeAt_take_exists u py _ hpy k
  obtain ⟨m, hm⟩ := nodeAt_take_exists u py _ hpy (k + 1)
  have hk1 : py.length - (j - 1) = k + 1 := by omega
  have htake : py.take (k + 1) = py.take k ++ [py[k]] :=
    (List.take_concat_get' py k hklt).symm
  rw [htake] at hm
  obtain ⟨lfn, posn, c0, c1, hnint, hc0, hc1, hmor⟩ :=
    nodeAt_internal_of_snoc u (py.take k) (py[k]) n m hn hm
  have hsn : SumOk n := sumOk_nodeAt u hsum _ n hn
  rw [hnint] at hsn
  have hanj : ancFreq u py j = n.freqOf := by
    rw [ancFreq, ← hk, hn]
  have hanj1 : ancFreq u py (j - 1) = m.freqOf := by
    rw [ancFreq, hk1, htake, hm]
  have hfn : n.freqOf = c0.freqOf + c1.freqOf := by
    rw [hnint]
    exact hsn.1
  rcases hmor with ⟨-, rfl⟩ | ⟨-, rfl⟩
  · exact ⟨c1, py.take k ++ [true], by simp, hc1,
      by rw [hanj, hanj1, hfn]⟩
  · exact ⟨c0, py.take k ++ [false], by simp, hc0,
      by rw [hanj, hanj1, hfn]; omega⟩

/-- Cross invariant, merged tree on the left: a merged branch keeps the
cross relation to every untouched tree, gaining one level of strictness
from the minimality of the two popped branches. -/
theorem crossT_merge_left (a b u : HuffBranch)
    (hua : a.freqOf ≤ u.freqOf) (hub : b.freqOf ≤ u.freqOf)
    (hsumu : SumOk u)
    (hcau : CrossT a u) (hcbu : CrossT b u)
    (hminu : ∀ p c, p ≠ [] → nodeAt u p = some c →
      c.freqOf ≤ a.freqOf ∧ c.freqOf ≤ b.freqOf) :
    CrossT (mergeBranch a b) u := by
  have hmerge : (mergeBranch a b).freqOf = a.freqOf + b.freqOf := by
    simp [mergeBranch, HuffBranch.freqOf, HuffBranch.leaf]
  intro px py lfx lfy hlx hly hflt
  cases px with
  | nil => exact absurd hlx (leafAt_merge_nil a b lfx)
  | cons dx qx =>
    cases dx with
    | false =>
      have hlxa : LeafAt a qx lfx := (leafAt_merge_false a b qx lfx).mp hlx
      obtain ⟨hlen, hchain⟩ := hcau qx py lfx lfy hlxa hly hflt
      have hstrict : qx.length + 1 ≤ py.length := by
        rcases Nat.lt_or_ge qx.length py.length with h | h
        · omega
        · exfalso
          have heq : qx.length = py.length := le_antisymm hlen h
          have hc := hchain qx.length (le_refl _)
          rw [heq, ancFreq_top] at hc
          rw [← heq, ancFreq_top] at hc
          omega
      refine ⟨by simpa using hstrict, ?_⟩
      intro i hi
      simp only [List.length_cons] at hi
      rcases Nat.lt_or_ge i (qx.length + 1) with hi2 | hi2
      · have hi3 : i ≤ qx.length := by omega
        rw [ancFreq_merge_false a b qx i hi3]
        exact hchain i hi3
      · have hieq : i = qx.length + 1 := by omega
        subst hieq
        have htop : ancFreq (mergeBranch a b) (false :: qx) (qx.length + 1)
            = (mergeBranch a b).freqOf := by
          have h := ancFreq_top (mergeBranch a b) (false :: qx)
          simpa using h
        rw [htop, hmerge]
        obtain ⟨S, psib, hpsne, hpsnode, hstep⟩ :=
          ancFreq_step u py lfy hly hsumu (qx.length + 1) (by omega) hstrict
        rw [hstep]
        simp only [Nat.add_sub_cancel]
        have h1 : ancFreq u py qx.length < a.freqOf := by
          have hc := hchain qx.length (le_refl _)
          rw [ancFreq_top] at hc
          exact hc
        have h2 : S.freqOf ≤ b.freqOf := (hminu psib S hpsne hpsnode).2
        omega
    | true =>
      have hlxb : LeafAt b qx lfx := (leafAt_merge_true a b qx lfx).mp hlx
      obtain ⟨hlen, hchain⟩ := hcbu qx py lfx lfy hlxb hly hflt
      have hstrict : qx.length + 1 ≤ py.length := by
        rcases Nat.lt_or_ge qx.length py.length with h | h
        · omega
        · exfalso
          have heq : qx.length = py.length := le_antisymm hlen h
          have hc := hchain qx.length (le_refl _)
          rw [heq, ancFreq_top] at hc
          rw [← heq, ancFreq_top] at hc
          omega
      refine ⟨by simpa using hstrict, ?_⟩
      intro i hi
      simp only [List.length_cons] at hi
      rcases Nat.lt_or_ge i (qx.length + 1) with hi2 | hi2
      · have hi3 : i ≤ qx.length := by omega
        rw [ancFreq_merge_true a b qx i hi3]
        exact hchain i hi3
      · have hieq : i = qx.length + 1 := by omega
        subst hieq
        have htop : ancFreq (mergeBranch a b) (true :: qx) (qx.length + 1)
            = (mergeBranch a b).freqOf := by
          have h := ancFreq_top (mergeBranch a b) (true :: qx)
          simpa using h
        rw [htop, hmerge]
        obtain ⟨S, psib, hpsne, hpsnode, hstep⟩ :=
          ancFreq_step u py lfy hly hsumu (qx.length + 1) (by omega) hstrict
        rw [hstep]
        simp only [Nat.add_sub_cancel]
        have h1 : ancFreq u py qx.length < b.freqOf := by
          have hc := hchain qx.length (le_refl _)
          rw [ancFreq_top] at hc
          exact hc
        have h2 : S.freqOf ≤ a.freqOf := (hminu psib S hpsne hpsnode).1
        omega

/-- Cross invariant, merged tree on the right: leaves of the merged
branch only get deeper, so an untouched tree keeps the relation to it. -/
theorem crossT_right_merge (a b t : HuffBranch)
    (hcta : CrossT t a) (hctb : CrossT t b) :
    CrossT t (mergeBranch a b) := by
  intro px py lfx lfy hlx hly hflt
  cases py with
  | nil => exact absurd hly (leafAt_merge_nil a b lfy)
  | cons dy qy =>
    cases dy with
    | false =>
      have hlya : LeafAt a qy lfy := (leafAt_merge_false a b qy lfy).mp hly
      obtain ⟨hlen, hchain⟩ := hcta px qy lfx lfy hlx hlya hflt
      refine ⟨by simp; omega, ?_⟩
      intro i hi
      rw [ancFreq_merge_false a b qy i (le_trans hi hlen)]
      exact hchain i hi
    | true =>
      have hlyb : LeafAt b qy lfy := (leafAt_merge_true a b qy lfy).mp hly
      obtain ⟨hlen, hchain⟩ := hctb px qy lfx lfy hlx hlyb hflt
      refine ⟨by simp; omega, ?_⟩
      intro i hi
      rw [ancFreq_merge_true a b qy i (le_trans hi hlen)]
      exact hchain i hi

/-- Within-tree monotonicity of the merged branch, from the monotonicity
of its parts and the cross relation between them. -/
theorem monoT_merge (a b : HuffBranch) (hma : MonoT a) (hmb : MonoT b)
    (hcab : CrossT a b) (hcba : CrossT b a) :
    MonoT (mergeBranch a b) := by
  intro px py lfx lfy hlx hly hflt
  cases px with
  | nil => exact absurd hlx (leafAt_merge_nil a b lfx)
  | cons dx qx =>
    cases py with
    | nil => exact absurd hly (leafAt_merge_nil a b lfy)
    | cons dy qy =>
      cases dx with
      | false =>
        have hlxa := (leafAt_merge_false a b qx lfx).mp hlx
        cases dy with
        | false =>
          have hlya := (leafAt_merge_false a b qy lfy).mp hly
          have := hma qx qy lfx lfy hlxa hlya hflt
          simpa using this
        | true =>
          have hlyb := (leafAt_merge_true a b qy lfy).mp hly
          have := (hcab qx qy lfx lfy hlxa hlyb hflt).1
          simpa using this
      | true =>
        have hlxb := (leafAt_merge_true a b qx lfx).mp hlx
        cases dy with
        | false =>
          have hlya := (leafAt_merge_false a b qy lfy).mp hly
          have := (hcba qx qy lfx lfy hlxb hlya hflt).1
          simpa using this
        | true =>
          have hlyb := (leafAt_merge_true a b qy lfy).mp hly
          have := hmb qx qy lfx lfy hlxb hlyb hflt
          simpa using this

end Huff

namespace Huff

/-- Decomposing a cons multiset into two distinguished members: either the
head is one of them (and the other sits in the tail), or both sit in the
tail. -/
theorem multiset_pair_cases {α : Type} (m : α) (rest : Multiset α)
    (t u : α) (s : Multiset α) (h : m ::ₘ rest = t ::ₘ u ::ₘ s) :
    (t = m ∧ u ∈ rest) ∨ (u = m ∧ t ∈ rest) ∨
    (∃ s2, rest = t ::ₘ u ::ₘ s2) := by
  by_cases ht : t = m
  · subst ht
    have h2 : rest = u ::ₘ s := (Multiset.cons_inj_right t).mp h
    exact Or.inl ⟨rfl, by rw [h2]; exact Multiset.mem_cons_self u s⟩
  · by_cases hu : u = m
    · subst hu
      rw [Multiset.cons_swap] at h
      have h2 : rest = t ::ₘ s := (Multiset.cons_inj_right u).mp h
      exact Or.inr (Or.inl ⟨rfl, by rw [h2]; exact Multiset.mem_cons_self t s⟩)
    · have hm : m ∈ t ::ₘ u ::ₘ s := by
        rw [← h]; exact Multiset.mem_cons_self m rest
      rcases Multiset.mem_cons.mp hm with h1 | hm2
      · exact absurd h1.symm ht
      rcases Multiset.mem_cons.mp hm2 with h2 | hm3
      · exact absurd h2.symm hu
      · obtain ⟨s2, rfl⟩ := Multiset.exists_cons_of_mem hm3
        have hre : t ::ₘ u ::ₘ m ::ₘ s2 = m ::ₘ t ::ₘ u ::ₘ s2 := by
          rw [Multiset.cons_swap u m, Multiset.cons_swap t m]
        rw [hre] at h
        exact Or.inr (Or.inr ⟨s2, (Multiset.cons_inj_right m).mp h⟩)

/-- Four leading cons cells of a multiset can be rotated in pairs. -/
theorem cons_rotate4 {α : Type} (a b t u : α) (s : Multiset α) :
    a ::ₘ b ::ₘ t ::ₘ u ::ₘ s = t ::ₘ u ::ₘ a ::ₘ b ::ₘ s := by
  rw [Multiset.cons_swap b t, Multiset.cons_swap a t,
    Multiset.cons_swap b u, Multiset.cons_swap a u]

end Huff

namespace Huff

/-- One Tree Reducer step preserves the forest invariant. -/
theorem forestInv_step (F F2 : Multiset HuffBranch) (hs : Step F F2)
    (hinv : ForestInv F) : ForestInv F2 := by
  obtain ⟨a, b, rest, hab, ha, hb⟩ := hs
  obtain ⟨hper, hmin, hcross⟩ := hinv
  have hamem : a ∈ a ::ₘ b ::ₘ rest := Multiset.mem_cons_self a _
  have hbmem : b ∈ a ::ₘ b ::ₘ rest := by
    exact Multiset.mem_cons_of_mem (Multiset.mem_cons_self b rest)
  have hrestmem : ∀ x ∈ rest, x ∈ a ::ₘ b ::ₘ rest := by
    intro x hx
    exact Multiset.mem_cons_of_mem (Multiset.mem_cons_of_mem hx)
  have hcab : CrossT a b := hcross a b rest rfl
  have hcba : CrossT b a := hcross b a rest (Multiset.cons_swap a b rest)
  -- frequency bound for strictly-below nodes of the merged branch
  have hbelow : ∀ p c, p ≠ [] → nodeAt (mergeBranch a b) p = some c →
      c.freqOf ≤ a.freqOf ∨ c.freqOf ≤ b.freqOf := by
    intro p c hp hc
    cases p with
    | nil => exact absurd rfl hp
    | cons d q =>
      cases d with
      | false =>
        rw [nodeAt_merge_false] at hc
        cases q with
        | nil =>
          simp only [nodeAt, Option.some.injEq] at hc
          subst hc
          exact Or.inl (le_of_eq (freqOf_setPos a 0))
        | cons e q2 =>
          rw [nodeAt_setPos_cons] at hc
          exact Or.inl (hmin a hamem (e :: q2) c (by simp) hc a hamem)
      | true =>
        rw [nodeAt_merge_true] at hc
        cases q with
        | nil =>
          simp only [nodeAt, Option.some.injEq] at hc
          subst hc
          exact Or.inr (le_of_eq (freqOf_setPos b 1))
        | cons e q2 =>
          rw [nodeAt_setPos_cons] at hc
          exact Or.inr (hmin b hbmem (e :: q2) c (by simp) hc b hbmem)
  have hmergefreq : (mergeBranch a b).freqOf = a.freqOf + b.freqOf := by
    simp [mergeBranch, HuffBranch.freqOf, HuffBranch.leaf]
  refine ⟨?_, ?_, ?_⟩
  · -- per-element invariants
    intro t ht
    rcases Multiset.mem_cons.mp ht with heq | ht2
    · subst heq
      exact ⟨heapInv_mergeBranch a b (hper a hamem).1 (hper b hbmem).1,
        sumOk_merge a b (hper a hamem).2.1 (hper b hbmem).2.1,
        monoT_merge a b (hper a hamem).2.2 (hper b hbmem).2.2 hcab hcba⟩
    · exact hper t (hrestmem t ht2)
  · -- ForestMin
    intro t ht p c hp hc u hu
    have hkey : c.freqOf ≤ a.freqOf ∨ c.freqOf ≤ b.freqOf := by
      rcases Multiset.mem_cons.mp ht with heq | ht2
      · subst heq
        exact hbelow p c hp hc
      · exact Or.inl (hmin t (hrestmem t ht2) p c hp hc a hamem)
    rcases Multiset.mem_cons.mp hu with hueq | hu2
    · subst hueq
      rw [hmergefreq]
      rcases hkey with h | h
      · omega
      · omega
    · rcases hkey with h | h
      · exact le_trans h (ha u hu2)
      · exact le_trans h (hb u hu2)
  · -- ForestCross
    intro t u s hdecomp
    rcases multiset_pair_cases (mergeBranch a b) rest t u s hdecomp with
      ⟨rfl, humem⟩ | ⟨rfl, htmem⟩ | ⟨s2, hrest2⟩
    · -- merged tree on the left
      obtain ⟨r2, rfl⟩ := Multiset.exists_cons_of_mem humem
      have hcau : CrossT a u := by
        refine hcross a u (b ::ₘ r2) ?_
        exact congrArg (a ::ₘ ·) (Multiset.cons_swap b u r2)
      have hcbu : CrossT b u := by
        refine hcross b u (a ::ₘ r2) ?_
        rw [Multiset.cons_swap a b]
        exact congrArg (b ::ₘ ·) (Multiset.cons_swap a u r2)
      refine crossT_merge_left a b u (ha u humem) (hb u humem)
        (hper u (hrestmem u humem)).2.1 hcau hcbu ?_
      intro p c hp hc
      exact ⟨hmin u (hrestmem u humem) p c hp hc a hamem,
        hmin u (hrestmem u humem) p c hp hc b hbmem⟩
    · -- merged tree on the right
      obtain ⟨r2, rfl⟩ := Multiset.exists_cons_of_mem htmem
      have hcta : CrossT t a := by
        refine hcross t a (b ::ₘ r2) ?_
        rw [congrArg (a ::ₘ ·) (Multiset.cons_swap b t r2),
          Multiset.cons_swap a t]
      have hctb : CrossT t b := by
        refine hcross t b (a ::ₘ r2) ?_
        rw [Multiset.cons_swap a b,
          congrArg (b ::ₘ ·) (Multiset.cons_swap a t r2),
          Multiset.cons_swap b t]
      exact crossT_right_merge a b t hcta hctb
    · -- both untouched
      refine hcross t u (a ::ₘ b ::ₘ s2) ?_
      rw [hrest2]
      exact cons_rotate4 a b t u s2

end Huff

namespace Huff

/-- A terminal branch has exactly one leaf: itself, at the empty path. -/
theorem leafAt_terminal (lf0 : HuffLeaf) (pos0 : Option Nat)
    (p : List Bool) (lf : HuffLeaf)
    (h : LeafAt (.terminal lf0 pos0) p lf) : p = [] ∧ lf = lf0 := by
  obtain ⟨pos, h⟩ := h
  cases p with
  | nil =>
    simp only [nodeAt, Option.some.injEq] at h
    injection h with h1 h2
    exact ⟨rfl, h1.symm⟩
  | cons d q => cases d <;> simp [nodeAt] at h

/-- The initial forest of one terminal branch per table entry satisfies
the forest invariant. -/
theorem forestInv_initial (ctf : List (Char × Nat)) :
    ForestInv ↑(initialForest ctf) := by
  have hterm : ∀ t ∈ (↑(initialForest ctf) : Multiset HuffBranch),
      ∃ e : Char × Nat, t = .terminal (HuffLeaf.mk (some e.1) e.2 none) none := by
    intro t ht
    rw [Multiset.mem_coe] at ht
    obtain ⟨e, -, rfl⟩ := List.mem_map.mp ht
    exact ⟨e, rfl⟩
  refine ⟨?_, ?_, ?_⟩
  · intro t ht
    obtain ⟨e, rfl⟩ := hterm t ht
    refine ⟨⟨rfl, trivial, rfl, rfl⟩, trivial, ?_⟩
    intro px py lfx lfy hlx hly hflt
    obtain ⟨rfl, -⟩ := leafAt_terminal _ _ px lfx hlx
    simp
  · intro t ht p c hp hc u hu
    obtain ⟨e, rfl⟩ := hterm t ht
    cases p with
    | nil => exact absurd rfl hp
    | cons d q => cases d <;> simp [nodeAt] at hc
  · intro t u s hdec
    have htm : t ∈ (↑(initialForest ctf) : Multiset HuffBranch) := by
      rw [hdec]; exact Multiset.mem_cons_self t _
    have hum : u ∈ (↑(initialForest ctf) : Multiset HuffBranch) := by
      rw [hdec]
      exact Multiset.mem_cons_of_mem (Multiset.mem_cons_self u s)
    obtain ⟨e1, rfl⟩ := hterm t htm
    obtain ⟨e2, rfl⟩ := hterm u hum
    intro px py lfx lfy hlx hly hflt
    obtain ⟨rfl, rfl⟩ := leafAt_terminal _ _ px lfx hlx
    obtain ⟨rfl, rfl⟩ := leafAt_terminal _ _ py lfy hly
    refine ⟨le_refl _, ?_⟩
    intro i hi
    have hi0 : i = 0 := by simpa using hi
    subst hi0
    rw [ancFreq_zero_of_leafAt _ _ _ hlx, ancFreq_zero_of_leafAt _ _ _ hly]
    exact hflt

/-- Any run of the Tree Reducer preserves the forest invariant. -/
theorem forestInv_reduces (F G : Multiset HuffBranch)
    (hred : Reduces F G) (h : ForestInv F) : ForestInv G := by
  induction hred with
  | refl => exact h
  | tail hsteps hstep ih => exact forestInv_step _ _ hstep ih

/-- The letter/weight payloads of all leaves of a branch, left to right. -/
def leafEntries : HuffBranch → List (Option Char × Nat)
  | .terminal lf _ => [(lf.character, lf.frequency)]
  | .internal _ _ c0 c1 => leafEntries c0 ++ leafEntries c1

/-- Setting a root position keeps the leaf payloads. -/
theorem leafEntries_setPos (t : HuffBranch) (i : Nat) :
    leafEntries (t.setPosInParent i) = leafEntries t := by
  cases t <;> rfl

/-- Merging concatenates the leaf payloads. -/
theorem leafEntries_merge (a b : HuffBranch) :
    leafEntries (mergeBranch a b) = leafEntries a ++ leafEntries b := by
  rw [mergeBranch]
  rw [show leafEntries (.internal (HuffLeaf.mk none (a.freqOf + b.freqOf) none)
    none (a.setPosInParent 0) (b.setPosInParent 1))
    = leafEntries (a.setPosInParent 0) ++ leafEntries (b.setPosInParent 1)
    from rfl]
  rw [leafEntries_setPos, leafEntries_setPos]

/-- All leaf payloads of a forest, as a multiset. -/
def leafSum (F : Multiset HuffBranch) : Multiset (Option Char × Nat) :=
  F.bind fun t => ↑(leafEntries t)

/-- One reduction step conserves the leaf payloads. -/
theorem leafSum_step (F F2 : Multiset HuffBranch) (hs : Step F F2) :
    leafSum F2 = leafSum F := by
  obtain ⟨a, b, rest, -, -, -⟩ := hs
  rw [leafSum, leafSum, Multiset.cons_bind, Multiset.cons_bind,
    Multiset.cons_bind, leafEntries_merge]
  rw [show (↑(leafEntries a ++ leafEntries b) : Multiset (Option Char × Nat))
    = ↑(leafEntries a) + ↑(leafEntries b) from rfl]
  rw [add_assoc]

/-- Any run of the Tree Reducer conserves the leaf payloads. -/
theorem leafSum_reduces (F G : Multiset HuffBranch) (hred : Reduces F G) :
    leafSum G = leafSum F := by
  induction hred with
  | refl => rfl
  | tail hsteps hstep ih => rw [leafSum_step _ _ hstep, ih]

/-- A leaf sitting in the tree contributes its payload. -/
theorem leafAt_mem_entries (t : HuffBranch) :
    ∀ p lf, LeafAt t p lf →
      (lf.character, lf.frequency) ∈ leafEntries t := by
  induction t with
  | terminal lf0 pos0 =>
    intro p lf h
    obtain ⟨-, rfl⟩ := leafAt_terminal lf0 pos0 p lf h
    simp [leafEntries]
  | internal lf0 pos0 c0 c1 ih0 ih1 =>
    intro p lf h
    obtain ⟨pos, hn⟩ := h
    cases p with
    | nil =>
      simp only [nodeAt, Option.some.injEq] at hn
      cases hn
    | cons d q =>
      rw [show leafEntries (.internal lf0 pos0 c0 c1)
        = leafEntries c0 ++ leafEntries c1 from rfl]
      cases d with
      | false => exact List.mem_append_left _ (ih0 q lf ⟨pos, hn⟩)
      | true => exact List.mem_append_right _ (ih1 q lf ⟨pos, hn⟩)

/-- The initial forest's leaf payloads are exactly the table entries. -/
theorem leafSum_initial (ctf : List (Char × Nat)) :
    leafSum ↑(initialForest ctf)
      = ↑(ctf.map fun e => ((some e.1 : Option Char), e.2)) := by
  induction ctf with
  | nil => rfl
  | cons e es ih =>
    rw [show initialForest (e :: es)
      = .terminal (HuffLeaf.mk (some e.1) e.2 none) none
        :: initialForest es from rfl]
    rw [show ((↑(HuffBranch.terminal (HuffLeaf.mk (some e.1) e.2 none) none
      :: initialForest es)) : Multiset HuffBranch)
      = HuffBranch.terminal (HuffLeaf.mk (some e.1) e.2 none) none
        ::ₘ ↑(initialForest es) from rfl]
    rw [leafSum, Multiset.cons_bind]
    rw [show (leafSum ↑(initialForest es)) = (Multiset.bind ↑(initialForest es)
      fun t => ↑(leafEntries t)) from rfl] at ih
    rw [ih]
    rfl

/-- Distinct table keys pin down each letter's weight. -/
theorem nodup_key_unique (l : List (Char × Nat))
    (h : (l.map Prod.fst).Nodup) (x : Char) (w1 w2 : Nat)
    (h1 : (x, w1) ∈ l) (h2 : (x, w2) ∈ l) : w1 = w2 := by
  induction l with
  | nil => cases h1
  | cons e es ih =>
    rw [List.map_cons, List.nodup_cons] at h
    rcases List.mem_cons.mp h1 with he1 | hm1 <;>
      rcases List.mem_cons.mp h2 with he2 | hm2
    · have h3 : (x, w1) = (x, w2) := he1.trans he2.symm
      exact (Prod.ext_iff.mp h3).2
    · exfalso
      apply h.1
      have hx : e.1 = x := (congrArg Prod.fst he1).symm
      rw [hx]
      exact List.mem_map.mpr ⟨(x, w2), hm2, rfl⟩
    · exfalso
      apply h.1
      have hx : e.1 = x := (congrArg Prod.fst he2).symm
      rw [hx]
      exact List.mem_map.mpr ⟨(x, w1), hm1, rfl⟩
    · exact ih h.2 hm1 hm2

end Huff

namespace Huff

/-- `set_code` only writes the code field. -/
theorem setCodeLeaf_character (pc : Option (List Bool)) (pos : Option Nat)
    (lf : HuffLeaf) : (setCodeLeaf pc pos lf).character = lf.character := by
  cases pos <;> rfl

/-- `set_code` only writes the code field. -/
theorem setCodeLeaf_frequency (pc : Option (List Bool)) (pos : Option Nat)
    (lf : HuffLeaf) : (setCodeLeaf pc pos lf).frequency = lf.frequency := by
  cases pos <;> rfl

/-- A terminal node of the code-assigned tree corresponds to a terminal
node of the raw tree at the same path, with the same letter and weight. -/
theorem nodeAt_setBranchCodes_terminal (t : HuffBranch) :
    ∀ pc p lf pos, nodeAt (setBranchCodes pc t) p = some (.terminal lf pos) →
      ∃ lf0, nodeAt t p = some (.terminal lf0 pos) ∧
        lf0.character = lf.character ∧ lf0.frequency = lf.frequency := by
  induction t with
  | terminal lf0 pos0 =>
    intro pc p lf pos h
    cases p with
    | nil =>
      simp only [setBranchCodes, nodeAt, Option.some.injEq] at h
      injection h with h1 h2
      refine ⟨lf0, ?_, ?_, ?_⟩
      · rw [← h2]; simp [nodeAt]
      · rw [← h1, setCodeLeaf_character]
      · rw [← h1, setCodeLeaf_frequency]
    | cons d q => cases d <;> simp [setBranchCodes, nodeAt] at h
  | internal lf0 pos0 c0 c1 ih0 ih1 =>
    intro pc p lf pos h
    cases p with
    | nil =>
      simp only [setBranchCodes, nodeAt, Option.some.injEq] at h
      cases h
    | cons d q =>
      cases d with
      | false =>
        have h2 : nodeAt (setBranchCodes (setCodeLeaf pc pos0 lf0).code c0) q
            = some (.terminal lf pos) := h
        obtain ⟨lfr, hr, hc, hf⟩ := ih0 _ q lf pos h2
        exact ⟨lfr, hr, hc, hf⟩
      | true =>
        have h2 : nodeAt (setBranchCodes (setCodeLeaf pc pos0 lf0).code c1) q
            = some (.terminal lf pos) := h
        obtain ⟨lfr, hr, hc, hf⟩ := ih1 _ q lf pos h2
        exact ⟨lfr, hr, hc, hf⟩

/-- Claim C9: code-length monotonicity under every tie-break resolution.
For any weight table with distinct letters, any tree `T` reachable from
its initial forest by the (nondeterministic) Tree Reducer relation, and
any letters `x`, `y` of its code table with `weight x > weight y`, the
code of `x` is not strictly longer than the code of `y`. -/
theorem claim_C9 (ctf : List (Char × Nat))
    (hnodup : (ctf.map Prod.fst).Nodup) (T : HuffBranch)
    (hred : Reduces ↑(initialForest ctf) {T})
    (x y : Char) (wx wy : Nat) (hx : (x, wx) ∈ ctf) (hy : (y, wy) ∈ ctf)
    (hw : wy < wx) (cx cy : List Bool)
    (hcx : setCharCodes (setBranchCodes none T) ccEmpty x = some cx)
    (hcy : setCharCodes (setBranchCodes none T) ccEmpty y = some cy) :
    cx.length ≤ cy.length := by
  have hinvF : ForestInv {T} :=
    forestInv_reduces _ _ hred (forestInv_initial ctf)
  have hTmem : T ∈ ({T} : Multiset HuffBranch) := Multiset.mem_singleton_self T
  obtain ⟨hheap, hsum, hmono⟩ := hinvF.1 T hTmem
  have hlsum : leafSum {T}
      = ↑(ctf.map fun e => ((some e.1 : Option Char), e.2)) := by
    rw [leafSum_reduces _ _ hred, leafSum_initial]
  have hentries : (↑(leafEntries T) : Multiset (Option Char × Nat))
      = ↑(ctf.map fun e => ((some e.1 : Option Char), e.2)) := by
    rw [← hlsum, leafSum, Multiset.singleton_bind]
  have hresolve : ∀ (p : List Bool) (lf : HuffLeaf) (z : Char) (wz : Nat),
      LeafAt T p lf → lf.character = some z → (z, wz) ∈ ctf →
      lf.frequency = wz := by
    intro p lf z wz hleaf hch hz
    have hmem : (lf.character, lf.frequency) ∈ leafEntries T :=
      leafAt_mem_entries T p lf hleaf
    have hmem2 : (lf.character, lf.frequency)
        ∈ (↑(leafEntries T) : Multiset (Option Char × Nat)) := by
      rwa [Multiset.mem_coe]
    rw [hentries, Multiset.mem_coe] at hmem2
    obtain ⟨e, he, heq⟩ := List.mem_map.mp hmem2
    have h1 : (some e.1 : Option Char) = lf.character :=
      (Prod.ext_iff.mp heq).1
    have h2 : e.2 = lf.frequency := (Prod.ext_iff.mp heq).2
    rw [hch] at h1
    have he1 : e.1 = z := Option.some.inj h1
    have hzin : (z, lf.frequency) ∈ ctf := by
      have he2 : e = (z, lf.frequency) := Prod.ext he1 h2
      rwa [← he2]
    exact nodup_key_unique ctf hnodup z lf.frequency wz hzin hz
  cases T with
  | terminal lf0 pos0 =>
    rw [show setCharCodes (setBranchCodes none (.terminal lf0 pos0)) ccEmpty
      = ccInsert ccEmpty ((setCodeLeaf none pos0 lf0).character.getD default)
        [false] from rfl] at hcx hcy
    simp only [ccInsert, ccEmpty] at hcx hcy
    by_cases hxc : x = (setCodeLeaf none pos0 lf0).character.getD default
    · rw [if_pos hxc] at hcx
      by_cases hyc : y = (setCodeLeaf none pos0 lf0).character.getD default
      · rw [if_pos hyc] at hcy
        rw [← Option.some.inj hcx, ← Option.some.inj hcy]
      · rw [if_neg hyc] at hcy; cases hcy
    · rw [if_neg hxc] at hcx; cases hcx
  | internal lf0 pos0 d0 d1 =>
    have htc : TerminalChars (setBranchCodes none (.internal lf0 pos0 d0 d1)) :=
      terminalChars_setBranchCodes _ hheap.2.2.2 none
    have hca := grown_code_at _ hheap
    rcases setCharCodes_entries _ htc ccEmpty x cx hcx with hbad |
      ⟨px, lfx, posx, hpx, hpxc, hrx⟩
    · cases hbad
    rcases setCharCodes_entries _ htc ccEmpty y cy hcy with hbad |
      ⟨py, lfy, posy, hpy, hpyc, hry⟩
    · cases hbad
    rcases hrx with ⟨rfl, -⟩ | ⟨hpxne, hpxv⟩
    · exact absurd (Option.some.inj hpx) (by simp [setBranchCodes])
    rcases hry with ⟨rfl, -⟩ | ⟨hpyne, hpyv⟩
    · exact absurd (Option.some.inj hpy) (by simp [setBranchCodes])
    have hcxp : lfx.code = some px := hca px _ hpxne hpx
    have hcyp : lfy.code = some py := hca py _ hpyne hpy
    rw [hcxp] at hpxv
    rw [hcyp] at hpyv
    simp only [Option.getD_some] at hpxv hpyv
    subst hpxv
    subst hpyv
    obtain ⟨lfx0, hpx0, hchx, hfx⟩ :=
      nodeAt_setBranchCodes_terminal _ none px lfx posx hpx
    obtain ⟨lfy0, hpy0, hchy, hfy⟩ :=
      nodeAt_setBranchCodes_terminal _ none py lfy posy hpy
    have hwx : lfx0.frequency = wx :=
      hresolve px lfx0 x wx ⟨posx, hpx0⟩ (by rw [hchx, hpxc]) hx
    have hwy : lfy0.frequency = wy :=
      hresolve py lfy0 y wy ⟨posy, hpy0⟩ (by rw [hchy, hpyc]) hy
    exact hmono px py lfx0 lfy0 ⟨posx, hpx0⟩ ⟨posy, hpy0⟩
      (by rw [hwx, hwy]; exact hw)

end Huff

namespace Huff

/-- Witness for C9 on the table {'a' ↦ 1, 'b' ↦ 2} and the single possible
reduction: the code of 'b' (weight 2) is not longer than the code of 'a'
(weight 1). -/
theorem claim_C9_witness :
    ([true] : List Bool).length ≤ ([false] : List Bool).length := by
  have hstep : Step (↑(initialForest [('a', 1), ('b', 2)]))
      {(.internal ⟨none, 3, none⟩ none
        (.terminal ⟨some 'a', 1, none⟩ (some 0))
        (.terminal ⟨some 'b', 2, none⟩ (some 1)) : HuffBranch)} := by
    have h := Step.merge (.terminal ⟨some 'a', 1, none⟩ none)
      (.terminal ⟨some 'b', 2, none⟩ none) 0
      (by decide)
      (by intro z hz; exact absurd hz (Multiset.not_mem_zero z))
      (by intro z hz; exact absurd hz (Multiset.not_mem_zero z))
    exact h
  exact claim_C9 [('a', 1), ('b', 2)] (by decide) _
    (Relation.ReflTransGen.single hstep)
    'b' 'a' 2 1 (by simp) (by simp) (by decide) [true] [false] rfl rfl

end Huff

namespace Huff

/-- Value of a most-significant-bit-first bit list. -/
def bitsToNat (bits : List Bool) : Nat :=
  bits.foldl (fun n b => 2 * n + (if b then 1 else 0)) 0

/-- The `w`-bit most-significant-bit-first representation of `n`
(`charBits c` is exactly `natBits 32 c.toNat`). -/
def natBits (w n : Nat) : List Bool :=
  (List.range w).map fun i => n.testBit (w - 1 - i)

/-- The source's 32-bit letter encoding is the generic one. -/
theorem charBits_eq_natBits (c : Char) : charBits c = natBits 32 c.toNat := by
  rfl

/-- A fold step prepends binary digits. -/
theorem bitsToNat_append_one (l : List Bool) (b : Bool) :
    bitsToNat (l ++ [b]) = 2 * bitsToNat l + (if b then 1 else 0) := by
  rw [bitsToNat, bitsToNat, List.foldl_append]
  rfl

/-- Decoding inverts the fixed-width encoding below `2 ^ w`. -/
theorem bitsToNat_natBits : ∀ (w n : Nat), n < 2 ^ w →
    bitsToNat (natBits w n) = n := by
  intro w
  induction w with
  | zero =>
    intro n hn
    interval_cases n
    rfl
  | succ v ih =>
    intro n hn
    have hself : natBits (v + 1) n = natBits v (n / 2) ++ [n.testBit 0] := by
      rw [natBits, natBits, List.range_succ, List.map_append]
      congr 1
      · apply List.map_congr_left
        intro i hi
        rw [List.mem_range] at hi
        rw [Nat.testBit_div_two]
        congr 1
        omega
      · simp only [List.map_cons, List.map_nil]
        congr 2
        omega
    rw [hself, bitsToNat_append_one, ih (n / 2) (by omega)]
    rw [Nat.testBit_zero]
    rcases Nat.even_or_odd n with he | ho
    · have h2 : n % 2 = 0 := Nat.even_iff.mp he
      have : decide (n % 2 = 1) = false := by simp [h2]
      rw [this]
      simp
      omega
    · have h2 : n % 2 = 1 := Nat.odd_iff.mp ho
      have : decide (n % 2 = 1) = true := by simp [h2]
      rw [this]
      simp
      omega

/-- The 32-bit letter encoding round-trips. -/
theorem char_roundtrip (c : Char) :
    Char.ofNat (bitsToNat (charBits c)) = c := by
  rw [charBits_eq_natBits, bitsToNat_natBits 32 c.toNat]
  · exact Char.ofNat_toNat c
  · have h := c.val.toNat_lt  -- c.toNat < 2 ^ 32
    exact h

/-- Modelled from the spec: `try_from_bin` (§4.4 Deserialize; the
`comp`/`tree` modules of the newer crate are not in the source snapshot):
recursive descent consuming bits from the front — on `1` parse two
subtrees and assemble an internal node assigning positions 0 and 1, on `0`
consume the fixed-width letter block; weights are absent from the wire
format and left zero.  Fuel bounds the recursion; each call consumes at
least one bit, so fuel equal to the input length suffices. -/
def parseTree : Nat → List Bool → Option (HuffBranch × List Bool)
  | 0, _ => none
  | _ + 1, [] => none
  | _ + 1, false :: rest =>
    if 32 ≤ rest.length then
      some (.terminal ⟨some (Char.ofNat (bitsToNat (rest.take 32))), 0, none⟩
        none, rest.drop 32)
    else none
  | fuel + 1, true :: rest =>
    match parseTree fuel rest with
    | none => none
    | some (c0, rest1) =>
      match parseTree fuel rest1 with
      | none => none
      | some (c1, rest2) =>
        some (.internal ⟨none, 0, none⟩ none
          (c0.setPosInParent 0) (c1.setPosInParent 1), rest2)

/-- The tree the deserializer reconstructs from a serialized tree: same
shape and letters, weights zeroed, codes cleared, positions re-assigned
0/1 (and none at the root). -/
def strip : HuffBranch → HuffBranch
  | .terminal lf _ => .terminal ⟨some (lf.character.getD default), 0, none⟩ none
  | .internal _ _ c0 c1 =>
    .internal ⟨none, 0, none⟩ none
      ((strip c0).setPosInParent 0) ((strip c1).setPosInParent 1)

/-- Modelled from the spec: the decompression walk (§4.5 step 3) — from
the root, bit 0 descends to the child at position 0 and bit 1 to position
1; reaching a terminal node emits its letter and the remaining bits. -/
def walkOne : HuffBranch → List Bool → Option (Char × List Bool)
  | .terminal lf _, bits => some (lf.character.getD default, bits)
  | .internal _ _ _ _, [] => none
  | .internal _ _ c0 _, false :: bits => walkOne c0 bits
  | .internal _ _ _ c1, true :: bits => walkOne c1 bits

/-- Modelled from the spec: emit exactly `n` letters by repeated walks
from the root, ignoring whatever bits remain afterwards (§4.5). -/
def decodeN (root : HuffBranch) : Nat → List Bool → Option (List Char)
  | 0, _ => some []
  | n + 1, bits =>
    match walkOne root bits with
    | none => none
    | some (c, rest) => (decodeN root n rest).map (c :: ·)

/-- Modelled from the spec: the weight-counting collaborator (§2 item 1,
`chars_to_freq` is not in the source snapshot) — one entry per distinct
letter with its occurrence count. -/
def buildWeights (s : List Char) : List (Char × Nat) :=
  s.dedup.map fun c => (c, s.count c)

/-- Modelled from the spec: the compressed container (§4.5 and §6: tree
topology bits, the original length as an explicit field, and the payload
zero-padded to a byte boundary), mirroring the crate's `CompressedData`
struct returned by `compress`. -/
structure CompressedData where
  treeBin : List Bool
  origLen : Nat
  comp : List Bool

/-- Modelled from the spec: `compress` (§4.5) — count weights, grow a
tree, serialize its topology as the header, concatenate the codes of all
input letters in order, and pad with zero bits to a byte boundary. -/
def compress (s : List Char) : Option CompressedData :=
  match growCtf (buildWeights s) with
  | .panicked _ => none
  | .ok T =>
    match T.root with
    | none => none
    | some r =>
      let payload := s.flatMap fun c => (T.charCodes c).getD []
      some ⟨setBin [] r, s.length,
        payload ++ List.replicate ((8 - payload.length % 8) % 8) false⟩

/-- Modelled from the spec: `decompress` (§4.5) — parse the topology
header into a tree, then walk the payload bit-by-bit emitting exactly
`origLen` letters, ignoring trailing padding (leftover header bits are the
non-fatal `TrailingBits` condition and are ignored). -/
def decompress (cd : CompressedData) : Option (List Char) :=
  match parseTree cd.treeBin.length cd.treeBin with
  | none => none
  | some (r, _) => decodeN r cd.origLen cd.comp

end Huff

namespace Huff

/-- The deserializer inverts the serializer: parsing a serialized tree
followed by any further bits reconstructs the stripped tree and leaves
exactly those bits. -/
theorem parseTree_binSpec (t : HuffBranch) :
    ∀ fuel rest, (binSpec t).length ≤ fuel →
      parseTree fuel (binSpec t ++ rest) = some (strip t, rest) := by
  induction t with
  | terminal lf pos =>
    intro fuel rest hlen
    rw [show binSpec (.terminal lf pos)
      = false :: charBits (lf.character.getD default) from rfl] at hlen ⊢
    have h32 : (charBits (lf.character.getD default)).length = 32 := by
      simp [charBits]
    cases fuel with
    | zero =>
      rw [List.length_cons] at hlen
      omega
    | succ f =>
      rw [List.cons_append]
      simp only [parseTree]
      have hge : 32 ≤ (charBits (lf.character.getD default) ++ rest).length := by
        rw [List.length_append, h32]
        omega
      rw [if_pos hge]
      rw [← h32, List.take_left, List.drop_left]
      rw [char_roundtrip]
      rw [show strip (.terminal lf pos)
        = .terminal ⟨some (lf.character.getD default), 0, none⟩ none from rfl]
  | internal lf pos c0 c1 ih0 ih1 =>
    intro fuel rest hlen
    rw [show binSpec (.internal lf pos c0 c1)
      = true :: (binSpec c0 ++ binSpec c1) from rfl] at hlen ⊢
    rw [List.length_cons, List.length_append] at hlen
    cases fuel with
    | zero => omega
    | succ f =>
      rw [List.cons_append, List.append_assoc]
      have h0 := ih0 f (binSpec c1 ++ rest) (by omega)
      have h1 := ih1 f rest (by omega)
      simp only [parseTree, h0, h1]
      rw [show strip (.internal lf pos c0 c1)
        = .internal ⟨none, 0, none⟩ none ((strip c0).setPosInParent 0)
          ((strip c1).setPosInParent 1) from rfl]

/-- The walk ignores the root position marker. -/
theorem walkOne_setPos (t : HuffBranch) (i : Nat) (bits : List Bool) :
    walkOne (t.setPosInParent i) bits = walkOne t bits := by
  cases t with
  | terminal lf pos => simp [HuffBranch.setPosInParent, walkOne]
  | internal lf pos c0 c1 =>
    cases bits with
    | nil => simp [HuffBranch.setPosInParent, walkOne]
    | cons d bs => cases d <;> simp [HuffBranch.setPosInParent, walkOne]

/-- Walking the stripped tree along a leaf's path consumes exactly the
path and emits the leaf's letter. -/
theorem walkOne_path (t : HuffBranch) :
    ∀ p lf pos rest, nodeAt t p = some (.terminal lf pos) →
      walkOne (strip t) (p ++ rest)
        = some (lf.character.getD default, rest) := by
  induction t with
  | terminal lf0 pos0 =>
    intro p lf pos rest hn
    obtain ⟨hp, hlf⟩ := leafAt_terminal lf0 pos0 p lf ⟨pos, hn⟩
    subst hp
    subst hlf
    rw [List.nil_append]
    rw [show strip (.terminal lf pos0)
      = .terminal ⟨some (lf.character.getD default), 0, none⟩ none from rfl]
    rw [show walkOne (.terminal ⟨some (lf.character.getD default), 0, none⟩
      none) rest = some (((some (lf.character.getD default) : Option Char)
        ).getD default, rest) from rfl]
    rw [Option.getD_some]
  | internal lf0 pos0 c0 c1 ih0 ih1 =>
    intro p lf pos rest hn
    cases p with
    | nil =>
      simp only [nodeAt, Option.some.injEq] at hn
      cases hn
    | cons d q =>
      rw [show strip (.internal lf0 pos0 c0 c1)
        = .internal ⟨none, 0, none⟩ none ((strip c0).setPosInParent 0)
          ((strip c1).setPosInParent 1) from rfl]
      cases d with
      | false =>
        rw [List.cons_append]
        rw [show walkOne (.internal ⟨none, 0, none⟩ none
          ((strip c0).setPosInParent 0) ((strip c1).setPosInParent 1))
          (false :: (q ++ rest))
          = walkOne ((strip c0).setPosInParent 0) (q ++ rest) from rfl]
        rw [walkOne_setPos]
        exact ih0 q lf pos rest hn
      | true =>
        rw [List.cons_append]
        rw [show walkOne (.internal ⟨none, 0, none⟩ none
          ((strip c0).setPosInParent 0) ((strip c1).setPosInParent 1))
          (true :: (q ++ rest))
          = walkOne ((strip c1).setPosInParent 1) (q ++ rest) from rfl]
        rw [walkOne_setPos]
        exact ih1 q lf pos rest hn

end Huff

namespace Huff

/-- The collection pass never removes an entry. -/
theorem setCharCodes_mono (t : HuffBranch) :
    ∀ m c, (m c).isSome → (setCharCodes t m c).isSome := by
  induction t with
  | terminal lf pos =>
    intro m c h
    rw [show setCharCodes (.terminal lf pos) m
      = ccInsert m (lf.character.getD default) [false] from rfl]
    simp only [ccInsert]
    split
    · simp
    · exact h
  | internal lf pos c0 c1 ih0 ih1 =>
    intro m c h
    have hm0 : ((match c0.letterOf with
        | some ch => ccInsert m ch (c0.codeOf.getD [])
        | none => setCharCodes c0 m) c).isSome := by
      rcases h0 : c0.letterOf with _ | ch0
      · exact ih0 m c h
      · simp only [ccInsert]
        split
        · simp
        · exact h
    rcases h1 : c1.letterOf with _ | ch1
    · rw [show setCharCodes (.internal lf pos c0 c1) m
        = setCharCodes c1 (match c0.letterOf with
          | some ch => ccInsert m ch (c0.codeOf.getD [])
          | none => setCharCodes c0 m) from by rw [setCharCodes, h1]]
      exact ih1 _ c hm0
    · rw [show setCharCodes (.internal lf pos c0 c1) m
        = ccInsert (match c0.letterOf with
          | some ch => ccInsert m ch (c0.codeOf.getD [])
          | none => setCharCodes c0 m) ch1 (c1.codeOf.getD [])
        from by rw [setCharCodes, h1]]
      simp only [ccInsert]
      split
      · simp
      · exact hm0

/-- Every letter sitting at a leaf strictly below the root ends up in the
code table. -/
theorem setCharCodes_some_of_leaf (t : HuffBranch) :
    TerminalChars t → ∀ m c,
      (∃ d q lf, LeafAt t (d :: q) lf ∧ lf.character = some c) →
      (setCharCodes t m c).isSome := by
  induction t with
  | terminal lf0 pos0 =>
    intro htc m c h
    obtain ⟨d, q, lf, hleaf, -⟩ := h
    obtain ⟨hp, -⟩ := leafAt_terminal lf0 pos0 (d :: q) lf hleaf
    cases hp
  | internal lf0 pos0 c0 c1 ih0 ih1 =>
    intro htc m c h
    obtain ⟨-, htc0, htc1⟩ := htc
    obtain ⟨d, q, lf, hleaf, hch⟩ := h
    obtain ⟨pos, hn⟩ := hleaf
    -- processing of the second child preserves whatever is already there
    have hstep : ∀ m2 : CharCodes, (m2 c).isSome →
        ((match c1.letterOf with
          | some ch => ccInsert m2 ch (c1.codeOf.getD [])
          | none => setCharCodes c1 m2) c).isSome := by
      intro m2 h2
      rcases h1 : c1.letterOf with _ | ch1
      · exact setCharCodes_mono c1 m2 c h2
      · simp only [ccInsert]
        split
        · simp
        · exact h2
    cases d with
    | false =>
      -- the letter is in the first child's subtree
      have hm0 : ((match c0.letterOf with
          | some ch => ccInsert m ch (c0.codeOf.getD [])
          | none => setCharCodes c0 m) c).isSome := by
        cases q with
        | nil =>
          -- the first child is this very leaf
          cases c0 with
          | terminal lf3 pos3 =>
            have h2 : some (HuffBranch.terminal lf3 pos3)
                = some (HuffBranch.terminal lf pos) := hn
            injection Option.some.inj h2 with h3 h4
            rw [show (HuffBranch.terminal lf3 pos3).letterOf = lf3.character
              from rfl, h3, hch]
            simp [ccInsert]
          | internal lf3 pos3 d0 d1 =>
            have h2 : some (HuffBranch.internal lf3 pos3 d0 d1)
                = some (HuffBranch.terminal lf pos) := hn
            cases Option.some.inj h2
        | cons e q2 =>
          -- deep leaf, so the child is internal and carries no letter
          cases c0 with
          | terminal lf3 pos3 =>
            obtain ⟨hp, -⟩ := leafAt_terminal lf3 pos3 (e :: q2) lf ⟨pos, hn⟩
            cases hp
          | internal lf3 pos3 d0 d1 =>
            rw [show (HuffBranch.internal lf3 pos3 d0 d1).letterOf
              = lf3.character from rfl, htc0.1]
            exact ih0 htc0 m c ⟨e, q2, lf, ⟨pos, hn⟩, hch⟩
      rcases h1 : c1.letterOf with _ | ch1
      · rw [show setCharCodes (.internal lf0 pos0 c0 c1) m
          = setCharCodes c1 (match c0.letterOf with
            | some ch => ccInsert m ch (c0.codeOf.getD [])
            | none => setCharCodes c0 m) from by rw [setCharCodes, h1]]
        exact setCharCodes_mono c1 _ c hm0
      · rw [show setCharCodes (.internal lf0 pos0 c0 c1) m
          = ccInsert (match c0.letterOf with
            | some ch => ccInsert m ch (c0.codeOf.getD [])
            | none => setCharCodes c0 m) ch1 (c1.codeOf.getD [])
          from by rw [setCharCodes, h1]]
        simp only [ccInsert]
        split
        · simp
        · exact hm0
    | true =>
      -- the letter is in the second child's subtree
      cases q with
      | nil =>
        cases c1 with
        | terminal lf3 pos3 =>
          have h2 : some (HuffBranch.terminal lf3 pos3)
              = some (HuffBranch.terminal lf pos) := hn
          injection Option.some.inj h2 with h3 h4
          rw [show setCharCodes (.internal lf0 pos0 c0 (.terminal lf3 pos3)) m
            = ccInsert (match c0.letterOf with
              | some ch => ccInsert m ch (c0.codeOf.getD [])
              | none => setCharCodes c0 m)
              ((HuffBranch.terminal lf3 pos3).letterOf.getD default)
              ((HuffBranch.terminal lf3 pos3).codeOf.getD []) from ?_]
          · rw [show (HuffBranch.terminal lf3 pos3).letterOf = lf3.character
              from rfl, h3, hch]
            simp [ccInsert]
          · rw [setCharCodes]
            rw [show (HuffBranch.terminal lf3 pos3).letterOf = lf3.character
              from rfl, h3, hch]
            rfl
        | internal lf3 pos3 d0 d1 =>
          have h2 : some (HuffBranch.internal lf3 pos3 d0 d1)
              = some (HuffBranch.terminal lf pos) := hn
          cases Option.some.inj h2
      | cons e q2 =>
        cases c1 with
        | terminal lf3 pos3 =>
          obtain ⟨hp, -⟩ := leafAt_terminal lf3 pos3 (e :: q2) lf ⟨pos, hn⟩
          cases hp
        | internal lf3 pos3 d0 d1 =>
          rw [show setCharCodes (.internal lf0 pos0 c0
              (.internal lf3 pos3 d0 d1)) m
            = setCharCodes (.internal lf3 pos3 d0 d1)
              (match c0.letterOf with
                | some ch => ccInsert m ch (c0.codeOf.getD [])
                | none => setCharCodes c0 m)
            from by
              rw [setCharCodes]
              rw [show (HuffBranch.internal lf3 pos3 d0 d1).letterOf
                = lf3.character from rfl, htc1.1]]
          exact ih1 htc1 _ c ⟨e, q2, lf, ⟨pos, hn⟩, hch⟩

end Huff

namespace Huff

/-- Every recorded leaf payload is realized by a leaf of the tree. -/
theorem mem_entries_leafAt (t : HuffBranch) :
    ∀ (ch : Option Char) (w : Nat), (ch, w) ∈ leafEntries t →
      ∃ p lf, LeafAt t p lf ∧ lf.character = ch ∧ lf.frequency = w := by
  induction t with
  | terminal lf0 pos0 =>
    intro ch w h
    rw [show leafEntries (.terminal lf0 pos0)
      = [(lf0.character, lf0.frequency)] from rfl] at h
    rw [List.mem_singleton] at h
    refine ⟨[], lf0, ⟨pos0, by simp [nodeAt]⟩, ?_, ?_⟩
    · exact (Prod.ext_iff.mp h.symm).1
    · exact (Prod.ext_iff.mp h.symm).2
  | internal lf0 pos0 c0 c1 ih0 ih1 =>
    intro ch w h
    rw [show leafEntries (.internal lf0 pos0 c0 c1)
      = leafEntries c0 ++ leafEntries c1 from rfl] at h
    rcases List.mem_append.mp h with h2 | h2
    · obtain ⟨q, lf, ⟨pos, hq⟩, hc, hw⟩ := ih0 ch w h2
      exact ⟨false :: q, lf, ⟨pos, hq⟩, hc, hw⟩
    · obtain ⟨q, lf, ⟨pos, hq⟩, hc, hw⟩ := ih1 ch w h2
      exact ⟨true :: q, lf, ⟨pos, hq⟩, hc, hw⟩

/-- A terminal node of the raw tree survives code assignment at the same
path, keeping its letter and weight. -/
theorem nodeAt_setBranchCodes_terminal_fwd (t : HuffBranch) :
    ∀ pc p lf pos, nodeAt t p = some (.terminal lf pos) →
      ∃ lf2, nodeAt (setBranchCodes pc t) p = some (.terminal lf2 pos) ∧
        lf2.character = lf.character ∧ lf2.frequency = lf.frequency := by
  induction t with
  | terminal lf0 pos0 =>
    intro pc p lf pos h
    obtain ⟨hp, hlf⟩ := leafAt_terminal lf0 pos0 p lf ⟨pos, h⟩
    subst hp
    have h2 : some (HuffBranch.terminal lf0 pos0)
        = some (HuffBranch.terminal lf pos) := h
    injection Option.some.inj h2 with h3 h4
    refine ⟨setCodeLeaf pc pos0 lf0, ?_, ?_, ?_⟩
    · rw [show setBranchCodes pc (.terminal lf0 pos0)
        = .terminal (setCodeLeaf pc pos0 lf0) pos0 from rfl]
      rw [← h4]
      simp [nodeAt]
    · rw [setCodeLeaf_character, h3]
    · rw [setCodeLeaf_frequency, h3]
  | internal lf0 pos0 c0 c1 ih0 ih1 =>
    intro pc p lf pos h
    cases p with
    | nil =>
      simp only [nodeAt, Option.some.injEq] at h
      cases h
    | cons d q =>
      cases d with
      | false =>
        obtain ⟨lf2, h2, hc, hf⟩ := ih0 (setCodeLeaf pc pos0 lf0).code q lf pos h
        exact ⟨lf2, h2, hc, hf⟩
      | true =>
        obtain ⟨lf2, h2, hc, hf⟩ := ih1 (setCodeLeaf pc pos0 lf0).code q lf pos h
        exact ⟨lf2, h2, hc, hf⟩

/-- Decoding against a single-leaf tree emits the letter `n` times and
consumes nothing. -/
theorem decodeN_terminal (lf : HuffLeaf) (pos : Option Nat) :
    ∀ (n : Nat) (bits : List Bool),
      decodeN (strip (.terminal lf pos)) n bits
        = some (List.replicate n (lf.character.getD default)) := by
  intro n
  induction n with
  | zero => intro bits; rfl
  | succ m ih =>
    intro bits
    rw [show decodeN (strip (.terminal lf pos)) (m + 1) bits
      = (match walkOne (strip (.terminal lf pos)) bits with
        | none => none
        | some (c, rest) =>
          (decodeN (strip (.terminal lf pos)) m rest).map (c :: ·))
      from rfl]
    rw [show walkOne (strip (.terminal lf pos)) bits
      = some (((some (lf.character.getD default) : Option Char)).getD default,
        bits) from rfl]
    rw [Option.getD_some]
    show (decodeN (strip (.terminal lf pos)) m bits).map
      (fun x => lf.character.getD default :: x)
      = some (List.replicate (m + 1) (lf.character.getD default))
    rw [ih bits]
    rfl

/-- Decoding the concatenated codes of a letter sequence against the
stripped tree recovers the sequence, whatever bits follow. -/
theorem decodeN_payload (rT : HuffBranch) (codes : CharCodes) :
    ∀ (s : List Char) (tail : List Bool),
      (∀ c ∈ s, ∃ p lf pos, codes c = some p ∧
        nodeAt rT p = some (.terminal lf pos) ∧ lf.character = some c) →
      decodeN (strip rT) s.length
        ((s.flatMap fun c => (codes c).getD []) ++ tail) = some s := by
  intro s
  induction s with
  | nil => intro tail h; rfl
  | cons c s2 ih =>
    intro tail h
    obtain ⟨p, lf, pos, hcode, hnode, hch⟩ := h c (List.mem_cons_self c s2)
    rw [List.flatMap_cons, hcode]
    rw [Option.getD_some, List.append_assoc]
    rw [List.length_cons]
    rw [show decodeN (strip rT) (s2.length + 1)
        (p ++ ((s2.flatMap fun x => (codes x).getD []) ++ tail))
      = (match walkOne (strip rT)
          (p ++ ((s2.flatMap fun x => (codes x).getD []) ++ tail)) with
        | none => none
        | some (cx, rest) => (decodeN (strip rT) s2.length rest).map (cx :: ·))
      from rfl]
    rw [walkOne_path rT p lf pos _ hnode]
    rw [hch, Option.getD_some]
    show (decodeN (strip rT) s2.length
        ((s2.flatMap fun x => (codes x).getD []) ++ tail)).map
      (fun x => c :: x) = some (c :: s2)
    rw [ih tail fun x hx => h x (List.mem_cons_of_mem c hx)]
    rfl

end Huff

namespace Huff

/-- Decoding the packed codes of `s` against the reconstructed (stripped)
grown tree recovers `s`, ignoring any trailing bits — the heart of the
round trip, covering both the degenerate single-letter tree (whose leaf
consumes no bits) and the general case. -/
theorem decode_grown (s : List Char) (r0 : HuffBranch) (hinv : HeapInv r0)
    (hentriesR0 : (↑(leafEntries r0) : Multiset (Option Char × Nat))
      = ↑((buildWeights s).map fun e => ((some e.1 : Option Char), e.2)))
    (tail : List Bool) :
    decodeN (strip (setBranchCodes none r0)) s.length
      ((s.flatMap fun c =>
        ((setCharCodes (setBranchCodes none r0) ccEmpty) c).getD []) ++ tail)
      = some s := by
  cases r0 with
  | terminal lfR posR =>
    have hposR : posR = none := hinv.1
    subst hposR
    -- the table is a single letter
    have hperm : ((buildWeights s).map
        fun e => ((some e.1 : Option Char), e.2)).Perm
        [(lfR.character, lfR.frequency)] := by
      rw [← Multiset.coe_eq_coe, ← hentriesR0]
      rfl
    have hone : ((buildWeights s).map
        fun e => ((some e.1 : Option Char), e.2))
        = [(lfR.character, lfR.frequency)] := hperm.eq_singleton
    have hdedup : ∃ c0, s.dedup = [c0] := by
      have hl := congrArg List.length hone
      rw [List.length_map, buildWeights, List.length_map] at hl
      exact List.length_eq_one.mp hl
    obtain ⟨c0, hc0⟩ := hdedup
    have hchar : lfR.character = some c0 := by
      rw [buildWeights, hc0] at hone
      simp only [List.map_map, List.map_cons, List.map_nil,
        List.cons.injEq] at hone
      exact ((Prod.ext_iff.mp hone.1).1).symm
    have hall : ∀ c ∈ s, c = c0 := by
      intro c hc
      have := List.mem_dedup.mpr hc
      rw [hc0, List.mem_singleton] at this
      exact this
    have hrep : s = List.replicate s.length c0 := List.eq_replicate_of_mem hall
    rw [show setBranchCodes none (.terminal lfR none)
      = .terminal lfR none from rfl]
    rw [decodeN_terminal lfR none s.length]
    rw [hchar, Option.getD_some, ← hrep]
  | internal lfR posR d0 d1 =>
    apply decodeN_payload
    intro c hc
    -- locate c's leaf in the raw tree
    have hc_dedup : c ∈ s.dedup := List.mem_dedup.mpr hc
    have hentry : ((some c : Option Char), s.count c)
        ∈ (buildWeights s).map fun e => ((some e.1 : Option Char), e.2) := by
      refine List.mem_map.mpr ⟨(c, s.count c), ?_, rfl⟩
      exact List.mem_map.mpr ⟨c, hc_dedup, rfl⟩
    have hmem : ((some c : Option Char), s.count c) ∈ leafEntries
        (.internal lfR posR d0 d1) := by
      rw [← Multiset.mem_coe, hentriesR0, Multiset.mem_coe]
      exact hentry
    obtain ⟨p0, lf0c, hleaf0, hch0, -⟩ :=
      mem_entries_leafAt _ (some c) (s.count c) hmem
    have hp0ne : p0 ≠ [] := by
      intro hp0
      subst hp0
      obtain ⟨pos, hn⟩ := hleaf0
      simp only [nodeAt, Option.some.injEq] at hn
      cases hn
    -- transfer to the code-assigned tree
    obtain ⟨pos0, hn0⟩ := hleaf0
    obtain ⟨lf2, hn2, hc2, -⟩ :=
      nodeAt_setBranchCodes_terminal_fwd _ none p0 lf0c pos0 hn0
    -- the code table has an entry for c
    have htcr : TerminalChars (setBranchCodes none (.internal lfR posR d0 d1)) :=
      terminalChars_setBranchCodes _ hinv.2.2.2 none
    have hsomec : ((setCharCodes (setBranchCodes none
        (.internal lfR posR d0 d1)) ccEmpty) c).isSome := by
      apply setCharCodes_some_of_leaf _ htcr
      cases p0 with
      | nil => exact absurd rfl hp0ne
      | cons d q =>
        exact ⟨d, q, lf2, ⟨pos0, hn2⟩, by rw [hc2, hch0]⟩
    obtain ⟨cx, hcx⟩ := Option.isSome_iff_exists.mp hsomec
    -- the entry is a leaf path, and the code is that path
    rcases setCharCodes_entries _ htcr ccEmpty c cx hcx with hbad |
      ⟨px, lfx, posx, hpx, hpxc, hrx⟩
    · cases hbad
    rcases hrx with ⟨rfl, -⟩ | ⟨hpxne, hpxv⟩
    · exact absurd (Option.some.inj hpx) (by simp [setBranchCodes])
    have hcxp : lfx.code = some px :=
      grown_code_at _ hinv px _ hpxne hpx
    rw [hcxp] at hpxv
    rw [Option.getD_some] at hpxv
    subst hpxv
    exact ⟨px, lfx, posx, hcx, hpx, hpxc⟩

end Huff

namespace Huff

/-- Claim C5: round-trip compression — for every non-empty letter
sequence `s`, compressing succeeds and decompressing the result yields
exactly `s`. -/
theorem claim_C5 (s : List Char) (hs : s ≠ []) :
    ∃ cd, compress s = some cd ∧ decompress cd = some s := by
  have hbw : buildWeights s ≠ [] := by
    intro h
    apply hs
    have h2 : s.dedup = [] := by
      have h3 := congrArg List.length h
      rw [buildWeights, List.length_map] at h3
      exact List.length_eq_zero.mp h3
    exact (List.dedup_eq_nil s).mp h2
  have hfne : initialForest (buildWeights s) ≠ [] := by
    simp [initialForest, hbw]
  obtain ⟨r0, rest, hg, hok⟩ := growCtfHeap_ok _ hfne
  have hgrow : growCtf (buildWeights s)
      = .ok ⟨some (setBranchCodes none r0),
        setCharCodes (setBranchCodes none r0) ccEmpty⟩ :=
    (growCtf_eq_heap _ hbw).trans hok
  have hinv : HeapInv r0 :=
    growLoop_preserves HeapInv heapInv_mergeBranch _ _
      (heapInv_initialForest _) r0 (hg ▸ List.mem_cons_self _ _)
  have hlen := growLoop_len (initialForest (buildWeights s)).length
    (initialForest (buildWeights s)) (Nat.le_succ _)
  rw [hg] at hlen
  have hrest : rest = [] := by
    cases rest with
    | nil => rfl
    | cons hh tt => simp at hlen
  subst hrest
  have hred : Reduces (↑(initialForest (buildWeights s))) (↑([r0])) := by
    have h := growLoop_reduces (initialForest (buildWeights s)).length
      (initialForest (buildWeights s))
    rw [hg] at h
    exact h
  have hentriesR0 : (↑(leafEntries r0) : Multiset (Option Char × Nat))
      = ↑((buildWeights s).map fun e => ((some e.1 : Option Char), e.2)) := by
    have h := leafSum_reduces _ _ hred
    rw [leafSum_initial] at h
    rw [← h, leafSum]
    rw [show ((↑[r0]) : Multiset HuffBranch) = {r0} from rfl]
    rw [Multiset.singleton_bind]
  set pay := s.flatMap fun c =>
    ((setCharCodes (setBranchCodes none r0) ccEmpty) c).getD [] with hpay
  refine ⟨⟨setBin [] (setBranchCodes none r0), s.length,
    pay ++ List.replicate ((8 - pay.length % 8) % 8) false⟩, ?_, ?_⟩
  · rw [compress, hgrow]
  · have hbin : setBin [] (setBranchCodes none r0)
        = binSpec (setBranchCodes none r0) := by
      rw [setBin_eq_binSpec, List.nil_append]
    have hparse : parseTree (setBin [] (setBranchCodes none r0)).length
        (setBin [] (setBranchCodes none r0))
        = some (strip (setBranchCodes none r0), []) := by
      rw [hbin]
      have h := parseTree_binSpec (setBranchCodes none r0)
        (binSpec (setBranchCodes none r0)).length [] (le_refl _)
      rwa [List.append_nil] at h
    show (match parseTree (setBin [] (setBranchCodes none r0)).length
        (setBin [] (setBranchCodes none r0)) with
      | none => none
      | some (rr, _) => decodeN rr s.length
          (pay ++ List.replicate ((8 - pay.length % 8) % 8) false))
      = some s
    rw [hparse]
    rw [hpay]
    exact decode_grown s r0 hinv hentriesR0 _

/-- Witness for C5 on the bytes "abb": compressing then decompressing
returns exactly "abb". -/
theorem claim_C5_witness :
    ∃ cd, compress ['a', 'b', 'b'] = some cd ∧
      decompress cd = some ['a', 'b', 'b'] :=
  claim_C5 ['a', 'b', 'b'] (by simp)

end Huff
